import Mathlib

/-!
Verification of the randomized text-humanization pipeline in
`aitexthumaizer.py` (class `EnhancedTextHumanizer`).

Strings are modelled as `List Char`; every random primitive of the source
(`random.random`, `random.choice`, `random.randint`, `random.sample`) is
modelled by an explicit oracle argument, so universally quantifying over the
oracle quantifies over every possible random outcome, and exhibiting a
concrete oracle exhibits one possible outcome.
-/

/-- Whitespace characters recognised by Python's `str.strip`, `str.split`
and the regex class in the relevant ASCII range. -/
def isWs (c : Char) : Bool :=
  c = ' ' || c = '\t' || c = '\n' || c = '\x0d' || c = '\x0b' || c = '\x0c'

/-- Terminal sentence punctuation, the class `[.!?]` of the source regexes. -/
def isTerm (c : Char) : Bool :=
  c = '.' || c = '!' || c = '?'

/-- Word characters for the regex `\b` boundary (`[A-Za-z0-9_]` in the
ASCII range relevant to the source's vocabulary). -/
def isWordChar (c : Char) : Bool :=
  c.isAlpha || c.isDigit || c = '_'

/-- Python `text.strip()`: drop whitespace from both ends. -/
def pyStrip (l : List Char) : List Char :=
  ((l.dropWhile isWs).reverse.dropWhile isWs).reverse

/-- Is the last consumed character (head of the reversed accumulator) a
terminal punctuation character?  This is the `(?<=[.!?])` lookbehind. -/
def headTerm : List Char → Bool
  | [] => false
  | a :: _ => isTerm a

/-- Worker for `re.split(r'(?<=[.!?])\s+', text)`: `acc` is the current
segment reversed; a whitespace character directly after a terminal
punctuation character ends the segment, and `skip = true` while the rest
of that (greedy) whitespace run is being consumed. -/
def sentAux : Bool → List Char → List Char → List (List Char)
  | _, acc, [] => [acc.reverse]
  | true, acc, x :: xs =>
    if isWs x then sentAux true acc xs
    else sentAux false [x] xs
  | false, acc, x :: xs =>
    if isWs x && headTerm acc then
      acc.reverse :: sentAux true [] xs
    else
      sentAux false (x :: acc) xs

/-- Source `_simple_sentence_split`: `re.split(r'(?<=[.!?])\s+', text.strip())`. -/
def simple_sentence_split (t : List Char) : List (List Char) :=
  sentAux false [] (pyStrip t)

/-- Number of sentence-like segments the source's splitter produces. -/
def sentence_count (t : List Char) : ℕ :=
  (simple_sentence_split t).length

/-- Worker for Python `str.split()` with no separator: split on whitespace
runs, dropping empty fields.  `cur` is the current token reversed. -/
def pySplitAux : List Char → List Char → List (List Char)
  | cur, [] => if cur = [] then [] else [cur.reverse]
  | cur, x :: xs =>
    if isWs x then
      if cur = [] then pySplitAux [] xs else cur.reverse :: pySplitAux [] xs
    else
      pySplitAux (x :: cur) xs

/-- Python `text.split()`: whitespace-delimited tokens. -/
def pySplit (t : List Char) : List (List Char) :=
  pySplitAux [] t

/-- Python `sep.join(parts)`. -/
def joinSep (sep : List Char) : List (List Char) → List Char
  | [] => []
  | [x] => x
  | x :: y :: r => x ++ sep ++ joinSep sep (y :: r)

/-- Worker for collapsing runs of a repeated character: drops an
occurrence of `c` whose previous (kept) character is also `c`. -/
def collapseAux (c : Char) : Char → List Char → List Char
  | _, [] => []
  | prev, x :: xs =>
    if x = c && prev = c then collapseAux c x xs
    else x :: collapseAux c x xs

/-- Effect of `re.sub(r'(c{2,})', c, text)`: every maximal run of two or
more `c` is replaced by a single `c` (a lone `c` is left alone, which gives
the same string). -/
def collapseRun (c : Char) : List Char → List Char
  | [] => []
  | x :: xs => x :: collapseAux c x xs

/-- Python `s.split(',')`. -/
def splitComma : List Char → List (List Char)
  | [] => [[]]
  | c :: rest =>
    if c = ',' then [] :: splitComma rest
    else
      match splitComma rest with
      | r :: rs => (c :: r) :: rs
      | [] => [[c]]

/-- Comma step of `_refine_punctuation` on one sentence: if the sentence
splits on `','` into more than one part, the first comma becomes `" — "`
and the remaining parts are re-joined with commas. -/
def commaTransform (s : List Char) : List Char :=
  match splitComma s with
  | p0 :: p1 :: rest => p0 ++ " — ".data ++ joinSep [','] (p1 :: rest)
  | _ => s

/-- Python `list.insert(n, a)` (appends when `n` is past the end). -/
def insIdx (n : ℕ) (a : α) (l : List α) : List α :=
  match n, l with
  | 0, l => a :: l
  | _ + 1, [] => [a]
  | n + 1, x :: xs => x :: insIdx n a xs

/-- Map with an explicit running index, mirroring per-sentence / per-token
random draws that are consumed in list order. -/
def mapIdxFrom (f : ℕ → α → β) : ℕ → List α → List β
  | _, [] => []
  | n, x :: xs => f n x :: mapIdxFrom f (n + 1) xs

/-- Does `w` match at the head of `l` with a trailing `\b` boundary
(end of string or a non-word character next)? -/
def wordAt (w l : List Char) : Bool :=
  l.take w.length = w &&
    (match l.drop w.length with
     | [] => true
     | c :: _ => !isWordChar c)

/-- First word of the alternation that matches at the head of `l`
(with the trailing boundary), together with the rest of `l`. -/
def tryWords (ws : List (List Char)) (l : List Char) : Option (List Char × List Char) :=
  match ws.find? (fun w => !w.isEmpty && wordAt w l) with
  | some w => some (w, l.drop w.length)
  | none => none

/-- One pass of `re.sub(r'\b(w₁|…|wₙ)\b', lambda m: random.choice(reps), text)`.
`p` records whether the previous character of the original text is a word
character (so `!p` is the leading `\b` boundary, the words all starting with
letters); `k` counts matches so far and indexes the choice oracle `orc`;
`fuel` bounds recursion depth (one character or one match is consumed per
step, so `fuel = l.length` is always enough). -/
def subScan (ws reps : List (List Char)) (orc : ℕ → ℕ) :
    ℕ → ℕ → Bool → List Char → List Char
  | 0, _, _, l => l
  | _ + 1, _, _, [] => []
  | fuel + 1, k, p, x :: xs =>
    if p then x :: subScan ws reps orc fuel k (isWordChar x) xs
    else
      match tryWords ws (x :: xs) with
      | some (_, rest) =>
          reps.getD (orc k % reps.length) [] ++ subScan ws reps orc fuel (k + 1) true rest
      | none => x :: subScan ws reps orc fuel k (isWordChar x) xs

/-- Run one `re.sub` pass over a whole text. -/
def subPass (ws reps : List (List Char)) (orc : ℕ → ℕ) (t : List Char) : List Char :=
  subScan ws reps orc t.length 0 false t

/-- First connective group of `_add_professional_transitions`. -/
def group1 : List (List Char) :=
  ["Furthermore".data, "Moreover".data, "Additionally".data]

/-- Replacement phrases for the first group. -/
def reps1 : List (List Char) :=
  ["In light of this,".data, "Considering this context,".data,
   "From another perspective,".data]

/-- Second connective group of `_add_professional_transitions`. -/
def group2 : List (List Char) :=
  ["However".data, "Nevertheless".data]

/-- Replacement phrases for the second group. -/
def reps2 : List (List Char) :=
  ["On the other hand,".data, "With that said,".data,
   "It".data ++ '\'' :: "s worth noting that".data]

/-- Source `_add_professional_transitions`: the two `re.sub` passes in the
dictionary's insertion order, `o1`/`o2` choosing the replacement for each
match of the respective pass. -/
def add_professional_transitions (t : List Char) (o1 o2 : ℕ → ℕ) : List Char :=
  subPass group2 reps2 o2 (subPass group1 reps1 o1 t)

/-- Interjection phrases of `_vary_sentence_structure`. -/
def interjections : List (List Char) :=
  ["Notably,".data, "Interestingly,".data, "Indeed,".data]

/-- Python `s.startswith(p)`. -/
def startsWithTok (p s : List Char) : Bool :=
  s.take p.length = p

/-- Source `_vary_sentence_structure`: per sentence, with the oracle's
decision, prepend a chosen interjection unless the sentence already starts
with one; sentences are re-joined with single spaces. -/
def vary_sentence_structure (t : List Char) (dec : ℕ → Bool) (ch : ℕ → ℕ) : List Char :=
  joinSep [' ']
    (mapIdxFrom
      (fun j s =>
        if dec j && !(interjections.any (fun p => startsWithTok p s)) then
          interjections.getD (ch j % 3) [] ++ ' ' :: s
        else s)
      0 (simple_sentence_split t))

/-- Hesitation markers of `_introduce_natural_hesitation`, already stripped
of their surrounding spaces as in the source. -/
def hesitation_markers : List (List Char) :=
  ["—".data, "...".data, "well,".data, "actually,".data]

/-- The insertion loop `for i in range(len(words)-1, 0, -1)`: the current
index is `i` (always ≥ 1, so index 0 is never an insertion point). -/
def hesLoop (dec : ℕ → Bool) (ch : ℕ → ℕ) : ℕ → List (List Char) → List (List Char)
  | 0, ws => ws
  | i + 1, ws =>
    hesLoop dec ch i
      (if dec (i + 1) then insIdx (i + 1) (hesitation_markers.getD (ch (i + 1) % 4) []) ws
       else ws)

/-- Source `_introduce_natural_hesitation`: split into whitespace tokens,
insert markers walking the indices from `len-1` down to `1`, re-join with
single spaces. -/
def introduce_natural_hesitation (t : List Char) (dec : ℕ → Bool) (ch : ℕ → ℕ) : List Char :=
  joinSep [' '] (hesLoop dec ch ((pySplit t).length - 1) (pySplit t))

/-- Qualifier phrases of `_add_contextual_nuance`. -/
def qualifiers : List (List Char) :=
  ["It appears that".data, "From our analysis,".data,
   "Based on current insights,".data, "Our research suggests that".data]

/-- Source `_add_contextual_nuance`: per sentence, with the oracle's
decision, prepend a chosen qualifier; re-join with single spaces. -/
def add_contextual_nuance (t : List Char) (dec : ℕ → Bool) (ch : ℕ → ℕ) : List Char :=
  joinSep [' ']
    (mapIdxFrom
      (fun j s => if dec j then qualifiers.getD (ch j % 4) [] ++ ' ' :: s else s)
      0 (simple_sentence_split t))

/-- Source `_refine_punctuation`: collapse runs of `!` then runs of `?`,
then per sentence, with the oracle's decision, turn the first comma into
`" — "`; re-join with single spaces. -/
def refine_punctuation (t : List Char) (dec : ℕ → Bool) : List Char :=
  joinSep [' ']
    (mapIdxFrom
      (fun j s => if dec j then commaTransform s else s)
      0 (simple_sentence_split (collapseRun '?' (collapseRun '!' t))))

/-- Python 3 `round` on an exact rational value: round half to even. -/
def pyRound (q : ℚ) : ℤ :=
  let f := q.floor
  if q - f < 1 / 2 then f
  else if (1 : ℚ) / 2 < q - f then f + 1
  else if Even f then f else f + 1

/-- The `style_modifiers` table with its `.get(style, 1.0)` default. -/
def styleFactor (style : String) : ℚ :=
  if style = "Professional" then 1
  else if style = "Casual" then 4 / 5
  else if style = "Technical" then 6 / 5
  else 1

/-- Source line 135: `max(2, min(5, round(base * (intensity/5) * factor)))`
where `base` is the call's `random.randint(2, 5)` draw. -/
def num_mods (style : String) (intensity : ℤ) (base : ℕ) : ℕ :=
  (max 2 (min 5 (pyRound ((base : ℚ) * ((intensity : ℚ) / 5) * styleFactor style)))).toNat

/-- One transformation record (source lines 145-152), the `datetime.now()`
timestamp modelled as an opaque oracle value. -/
structure TransRecord where
  timestamp : ℕ
  original_length : ℕ
  humanized_length : ℕ
  style : String
  intensity : ℤ
  modifications_applied : List (Fin 5)
deriving Repr, DecidableEq

/-- The mutable state of an `EnhancedTextHumanizer` instance. -/
structure Humanizer where
  transformation_history : List TransRecord
deriving Repr, DecidableEq

/-- One call's worth of random outcomes.  `base` is the `randint(2,5)`
draw, `order` the shuffled order in which `random.sample` would hand out
the five operations, and the remaining fields the per-match / per-sentence
/ per-token draws inside each operation. -/
structure Oracle where
  tstamp : ℕ
  base : ℕ
  order : List (Fin 5)
  transO1 : ℕ → ℕ
  transO2 : ℕ → ℕ
  varyDec : ℕ → Bool
  varyCh : ℕ → ℕ
  hesDec : ℕ → Bool
  hesCh : ℕ → ℕ
  nuanceDec : ℕ → Bool
  nuanceCh : ℕ → ℕ
  refineDec : ℕ → Bool

/-- An oracle that models an outcome the Python RNG can actually produce:
`randint(2, 5)` lies in `[2, 5]` and `random.sample` draws without
replacement from the five operations. -/
def validOracle (o : Oracle) : Prop :=
  2 ≤ o.base ∧ o.base ≤ 5 ∧ o.order.Nodup ∧ o.order.length = 5

instance (o : Oracle) : Decidable (validOracle o) := by
  unfold validOracle; infer_instance

/-- Source line 138: `random.sample(self.modifications, num_mods)` —
the first `num_mods` entries of the oracle's shuffled order. -/
def selected_mods (style : String) (intensity : ℤ) (o : Oracle) : List (Fin 5) :=
  o.order.take (num_mods style intensity o.base)

/-- Dispatch an operation index (position in `self.modifications`) to the
corresponding rewrite operation with its slice of the oracle. -/
def applyMod (o : Oracle) (m : Fin 5) (t : List Char) : List Char :=
  if m.val = 0 then add_professional_transitions t o.transO1 o.transO2
  else if m.val = 1 then vary_sentence_structure t o.varyDec o.varyCh
  else if m.val = 2 then introduce_natural_hesitation t o.hesDec o.hesCh
  else if m.val = 3 then add_contextual_nuance t o.nuanceDec o.nuanceCh
  else refine_punctuation t o.refineDec

/-- Source `humanize` (lines 111-155): empty input is returned unchanged
with no history record; otherwise the selected operations are applied in
order and one record is appended to the history. -/
def humanize (hm : Humanizer) (text : List Char) (style : String)
    (intensity : ℤ) (o : Oracle) : List Char × Humanizer :=
  if text = [] then (text, hm)
  else
    let sel := selected_mods style intensity o
    let out := sel.foldl (fun t m => applyMod o m t) text
    (out,
     ⟨hm.transformation_history ++
       [⟨o.tstamp, text.length, out.length, style, intensity, sel⟩]⟩)

/-- C1: humanize on the empty string returns it unchanged, applies no
rewrite operation, and leaves the history (the humanizer's whole state)
exactly as it was, for every style, intensity and random outcome. -/
theorem humanize_empty_input (hm : Humanizer) (style : String)
    (intensity : ℤ) (o : Oracle) :
    humanize hm [] style intensity o = ([], hm) := rfl

/-! ### Sentence splitter: C7 -/

theorem sentAux_no_term (l : List Char) :
    ∀ acc, (∀ c ∈ acc, isTerm c = false) → (∀ c ∈ l, isTerm c = false) →
      sentAux false acc l = [acc.reverse ++ l] := by
  induction l with
  | nil => intro acc _ _; simp [sentAux]
  | cons x xs ih =>
    intro acc hacc hl
    have hhead : headTerm acc = false := by
      cases acc with
      | nil => rfl
      | cons a t => exact hacc a (List.mem_cons_self a t)
    rw [sentAux, if_neg (by simp [hhead])]
    rw [ih (x :: acc)
      (by intro c hc; rcases List.mem_cons.1 hc with h | h
          · exact h ▸ hl x (List.mem_cons_self x xs)
          · exact hacc c h)
      (fun c hc => hl c (List.mem_cons_of_mem x hc))]
    simp

theorem pyStrip_mem_of_mem {c : Char} {t : List Char} (h : c ∈ pyStrip t) : c ∈ t := by
  unfold pyStrip at h
  rw [List.mem_reverse] at h
  have h1 := (List.dropWhile_sublist (l := (t.dropWhile isWs).reverse) isWs).mem h
  rw [List.mem_reverse] at h1
  exact (List.dropWhile_sublist isWs).mem h1

/-- C7: the sentence splitter yields exactly the segments `A.`, `B!`, `C?`
on `"A. B! C?"`, and on a text with no terminal punctuation it yields the
single-element list holding the whole stripped text. -/
theorem simple_sentence_split_spec :
    simple_sentence_split "A. B! C?".data = ["A.".data, "B!".data, "C?".data] ∧
    ∀ t : List Char, (∀ c ∈ t, isTerm c = false) →
      simple_sentence_split t = [pyStrip t] := by
  constructor
  · decide
  · intro t ht
    unfold simple_sentence_split
    rw [sentAux_no_term _ [] (by simp)
      (fun c hc => ht c (pyStrip_mem_of_mem hc))]
    simp

/-- Witness for the hypothesis of `simple_sentence_split_spec`: a concrete
text with no terminal punctuation splits into itself. -/
theorem simple_sentence_split_spec_witness :
    simple_sentence_split "Hello world".data = [pyStrip "Hello world".data] :=
  simple_sentence_split_spec.2 "Hello world".data (by decide)

/-! ### Punctuation collapse: C8 -/

/-- The first two lines of `_refine_punctuation`: collapse runs of `!`,
then runs of `?`. -/
def punct_collapse (t : List Char) : List Char :=
  collapseRun '?' (collapseRun '!' t)

/-- No two adjacent occurrences of `c`. -/
def NoAdjacent (c : Char) (l : List Char) : Prop :=
  List.Chain' (fun a b => ¬(a = c ∧ b = c)) l

theorem collapseAux_chain (c : Char) (l : List Char) :
    ∀ prev, List.Chain (fun a b => ¬(a = c ∧ b = c)) prev (collapseAux c prev l) := by
  induction l with
  | nil => intro prev; exact List.Chain.nil
  | cons x xs ih =>
    intro prev
    by_cases h : x = c ∧ prev = c
    · rw [collapseAux, if_pos (by simp [h.1, h.2])]
      have hx : x = prev := h.1.trans h.2.symm
      exact hx ▸ ih x
    · rw [collapseAux, if_neg (by simpa using h)]
      exact List.Chain.cons (by tauto) (ih x)

theorem collapseAux_fixed (c : Char) (l : List Char) :
    ∀ prev, List.Chain (fun a b => ¬(a = c ∧ b = c)) prev l →
      collapseAux c prev l = l := by
  induction l with
  | nil => intro prev _; rfl
  | cons x xs ih =>
    intro prev h
    rcases List.chain_cons.1 h with ⟨h1, h2⟩
    rw [collapseAux, if_neg (by simpa using fun hx hp => h1 ⟨hp, hx⟩)]
    rw [ih x h2]

theorem collapseAux_preserves (c d : Char) (l : List Char) :
    ∀ prev, List.Chain (fun a b => ¬(a = c ∧ b = c)) prev l →
      List.Chain (fun a b => ¬(a = c ∧ b = c)) prev (collapseAux d prev l) := by
  induction l with
  | nil => intro prev _; exact List.Chain.nil
  | cons x xs ih =>
    intro prev h
    rcases List.chain_cons.1 h with ⟨h1, h2⟩
    by_cases hd : x = d ∧ prev = d
    · rw [collapseAux, if_pos (by simp [hd.1, hd.2])]
      have hx : x = prev := hd.1.trans hd.2.symm
      exact hx ▸ ih x h2
    · rw [collapseAux, if_neg (by simpa using hd)]
      exact List.Chain.cons h1 (ih x h2)

theorem collapseRun_noAdjacent (c : Char) (l : List Char) :
    NoAdjacent c (collapseRun c l) := by
  cases l with
  | nil => exact List.chain'_nil
  | cons x xs => exact collapseAux_chain c xs x

theorem collapseRun_fixed (c : Char) (l : List Char) (h : NoAdjacent c l) :
    collapseRun c l = l := by
  cases l with
  | nil => rfl
  | cons x xs => exact congrArg (x :: ·) (collapseAux_fixed c xs x h)

theorem collapseRun_preserves (c d : Char) (l : List Char) (h : NoAdjacent c l) :
    NoAdjacent c (collapseRun d l) := by
  cases l with
  | nil => exact List.chain'_nil
  | cons x xs => exact collapseAux_preserves c d xs x h

/-- C8: the punctuation-collapse step is idempotent on every string, and
in particular `"!!!"` collapses to `"!"` and stays `"!"` when collapsed
again. -/
theorem punct_collapse_idempotent :
    (∀ l : List Char, punct_collapse (punct_collapse l) = punct_collapse l) ∧
    punct_collapse "!!!".data = "!".data ∧
    punct_collapse (punct_collapse "!!!".data) = "!".data := by
  refine ⟨fun l => ?_, by decide, by decide⟩
  unfold punct_collapse
  have hb : NoAdjacent '!' (collapseRun '?' (collapseRun '!' l)) :=
    collapseRun_preserves '!' '?' _ (collapseRun_noAdjacent '!' l)
  have hq : NoAdjacent '?' (collapseRun '?' (collapseRun '!' l)) :=
    collapseRun_noAdjacent '?' _
  rw [collapseRun_fixed '!' _ hb]
  exact collapseRun_fixed '?' _ hq

/-! ### Operation selection and history: C2, C3, C9, C10 -/

theorem num_mods_ge_two (s : String) (i : ℤ) (b : ℕ) : 2 ≤ num_mods s i b := by
  unfold num_mods
  have h1 : (2 : ℤ) ≤ max 2 (min 5 (pyRound ((b : ℚ) * ((i : ℚ) / 5) * styleFactor s))) :=
    le_max_left _ _
  omega

theorem num_mods_le_five (s : String) (i : ℤ) (b : ℕ) : num_mods s i b ≤ 5 := by
  unfold num_mods
  have h1 : max 2 (min 5 (pyRound ((b : ℚ) * ((i : ℚ) / 5) * styleFactor s))) ≤ 5 :=
    max_le (by norm_num) (min_le_left _ _)
  omega

theorem selected_mods_length (s : String) (i : ℤ) (o : Oracle)
    (h : validOracle o) : (selected_mods s i o).length = num_mods s i o.base := by
  rcases h with ⟨-, -, -, hlen⟩
  have h5 : num_mods s i o.base ≤ 5 := num_mods_le_five s i o.base
  simp [selected_mods, hlen]
  omega

/-- C2: on non-empty input the applied operations are a without-replacement
selection from the five rewrite operations — pairwise distinct, between 2
and 5 of them — and the output is the fold of exactly that selection, in
its order, over the input text. -/
theorem humanize_applies_selection (hm : Humanizer) (t : List Char) (s : String)
    (i : ℤ) (o : Oracle) (h1 : t ≠ []) (h2 : validOracle o) :
    (selected_mods s i o).Nodup ∧
    2 ≤ (selected_mods s i o).length ∧ (selected_mods s i o).length ≤ 5 ∧
    (humanize hm t s i o).1 = (selected_mods s i o).foldl (fun a m => applyMod o m a) t := by
  obtain ⟨hb1, hb2, hnd, hlen⟩ := h2
  refine ⟨(List.take_sublist _ _).nodup hnd, ?_, ?_, ?_⟩
  · rw [selected_mods_length s i o ⟨hb1, hb2, hnd, hlen⟩]
    exact num_mods_ge_two s i o.base
  · rw [selected_mods_length s i o ⟨hb1, hb2, hnd, hlen⟩]
    exact num_mods_le_five s i o.base
  · simp [humanize, h1]

/-- Default concrete oracle for witnesses and counterexamples: base draw 2,
identity operation order, every probabilistic decision `false`, every
choice index 0. -/
def baseOracle : Oracle :=
  ⟨0, 2, [0, 1, 2, 3, 4], fun _ => 0, fun _ => 0, fun _ => false, fun _ => 0,
   fun _ => false, fun _ => 0, fun _ => false, fun _ => 0, fun _ => false⟩

/-- Witness for `humanize_applies_selection` at a concrete call. -/
theorem humanize_applies_selection_witness :
    (selected_mods "Professional" 5 baseOracle).Nodup ∧
    2 ≤ (selected_mods "Professional" 5 baseOracle).length ∧
    (selected_mods "Professional" 5 baseOracle).length ≤ 5 ∧
    (humanize ⟨[]⟩ "Hi".data "Professional" 5 baseOracle).1 =
      (selected_mods "Professional" 5 baseOracle).foldl
        (fun a m => applyMod baseOracle m a) "Hi".data :=
  humanize_applies_selection ⟨[]⟩ "Hi".data "Professional" 5 baseOracle
    (by decide) (by decide)

unseal Rat.mul Rat.add Rat.sub Rat.inv in
/-- C3 counterexample: with the same style (`Professional`) and the same
intensity (5), two outcomes of the call's `randint(2, 5)` draw lead to
different numbers of applied operations (2 versus 5), so the operation
count is not a deterministic function of style and intensity. -/
theorem mod_count_depends_on_draw :
    validOracle baseOracle ∧ validOracle { baseOracle with base := 5 } ∧
    ((humanize ⟨[]⟩ "Hi".data "Professional" 5 baseOracle).2.transformation_history.map
        (fun r => r.modifications_applied.length) = [2]) ∧
    ((humanize ⟨[]⟩ "Hi".data "Professional" 5
          { baseOracle with base := 5 }).2.transformation_history.map
        (fun r => r.modifications_applied.length) = [5]) := by
  decide

/-- C3 as amended: on non-empty input the number of applied operations is
`max(2, min(5, round(r * (intensity/5) * styleFactor)))` where `r` is that
call's `randint(2, 5)` draw — deterministic given the draw, the style and
the intensity. -/
theorem humanize_mod_count_formula (hm : Humanizer) (t : List Char) (s : String)
    (i : ℤ) (o : Oracle) (h1 : t ≠ []) (h2 : validOracle o) :
    (humanize hm t s i o).2.transformation_history.getLast?.map
        (fun r => r.modifications_applied.length)
      = some (max 2 (min 5 (pyRound ((o.base : ℚ) * ((i : ℚ) / 5) * styleFactor s)))).toNat := by
  have h := selected_mods_length s i o h2
  simp [humanize, if_neg h1, List.getLast?_concat, h, num_mods]

/-- Witness for `humanize_mod_count_formula` at a concrete call. -/
theorem humanize_mod_count_formula_witness :
    (humanize ⟨[]⟩ "Hi".data "Professional" 5 baseOracle).2.transformation_history.getLast?.map
        (fun r => r.modifications_applied.length)
      = some (max 2 (min 5 (pyRound ((baseOracle.base : ℚ) * ((5 : ℚ) / 5) *
          styleFactor "Professional")))).toNat :=
  humanize_mod_count_formula ⟨[]⟩ "Hi".data "Professional" 5 baseOracle
    (by decide) (by decide)

/-- C9: every humanize call on non-empty input appends exactly one record
to the end of the history — its `original_length` being the input's length
— and otherwise leaves the humanizer's state (the history it carries)
unchanged, for every style, intensity and random outcome. -/
theorem humanize_appends_one_record (hm : Humanizer) (t : List Char) (s : String)
    (i : ℤ) (o : Oracle) (h1 : t ≠ []) :
    ∃ r : TransRecord,
      (humanize hm t s i o).2.transformation_history =
        hm.transformation_history ++ [r] ∧
      r.original_length = t.length := by
  simp only [humanize, if_neg h1]
  exact ⟨_, rfl, rfl⟩

/-- Witness for `humanize_appends_one_record` at a concrete call. -/
theorem humanize_appends_one_record_witness :
    ∃ r : TransRecord,
      (humanize ⟨[]⟩ "Hi".data "Professional" 5 baseOracle).2.transformation_history =
        ([] : List TransRecord) ++ [r] ∧
      r.original_length = "Hi".data.length :=
  humanize_appends_one_record ⟨[]⟩ "Hi".data "Professional" 5 baseOracle (by decide)

unseal Rat.mul Rat.add Rat.sub Rat.inv in
/-- C10: the empty-input bypass applies only to the exactly-empty string —
for the whitespace-only input `" "` there is a genuine random outcome
(hesitation insertion then transition substitution) whose output is the
empty string while a transformation record is still appended. -/
theorem whitespace_input_not_bypassed :
    (" ".data ≠ ([] : List Char)) ∧
    validOracle { baseOracle with order := [2, 0, 1, 3, 4] } ∧
    (humanize ⟨[]⟩ " ".data "Professional" 5
        { baseOracle with order := [2, 0, 1, 3, 4] }).1 = [] ∧
    (humanize ⟨[]⟩ " ".data "Professional" 5
        { baseOracle with order := [2, 0, 1, 3, 4] }).2.transformation_history.length = 1 := by
  decide

/-! ### Hesitation insertion: C6 -/

theorem pySplitAux_tokens (l : List Char) :
    ∀ cur, (∀ c ∈ cur, isWs c = false) →
      ∀ tok ∈ pySplitAux cur l, tok ≠ [] ∧ ∀ c ∈ tok, isWs c = false := by
  induction l with
  | nil =>
    intro cur hcur tok htok
    by_cases hc : cur = []
    · simp [pySplitAux, hc] at htok
    · simp only [pySplitAux, if_neg hc, List.mem_singleton] at htok
      subst htok
      exact ⟨by simpa using hc, fun c hc' => hcur c (List.mem_reverse.1 hc')⟩
  | cons x xs ih =>
    intro cur hcur tok htok
    by_cases hx : isWs x = true
    · rw [pySplitAux, if_pos hx] at htok
      by_cases hc : cur = []
      · rw [if_pos hc] at htok
        exact ih [] (by simp) tok htok
      · rw [if_neg hc] at htok
        rcases List.mem_cons.1 htok with h | h
        · subst h
          exact ⟨by simpa using hc, fun c hc' => hcur c (List.mem_reverse.1 hc')⟩
        · exact ih [] (by simp) tok h
    · rw [pySplitAux, if_neg hx] at htok
      refine ih (x :: cur) ?_ tok htok
      intro c hc
      rcases List.mem_cons.1 hc with h | h
      · exact h ▸ (by simpa using hx)
      · exact hcur c h

theorem pySplit_tokens (t : List Char) :
    ∀ tok ∈ pySplit t, tok ≠ [] ∧ ∀ c ∈ tok, isWs c = false :=
  pySplitAux_tokens t [] (by simp)

theorem insIdx_head? {α : Type} (n : ℕ) (a : α) (l : List α) (h : l ≠ []) :
    (insIdx (n + 1) a l).head? = l.head? := by
  cases l with
  | nil => exact absurd rfl h
  | cons x xs => rfl

theorem insIdx_ne_nil {α : Type} (n : ℕ) (a : α) (l : List α) :
    insIdx n a l ≠ [] := by
  cases n with
  | zero => simp [insIdx]
  | succ m => cases l <;> simp [insIdx]

theorem mem_insIdx {α : Type} {x a : α} :
    ∀ (n : ℕ) (l : List α), x ∈ insIdx n a l → x = a ∨ x ∈ l := by
  intro n
  induction n with
  | zero =>
    intro l h
    rcases List.mem_cons.1 h with h | h
    · exact Or.inl h
    · exact Or.inr h
  | succ m ih =>
    intro l h
    cases l with
    | nil => simp [insIdx] at h; exact Or.inl h
    | cons y ys =>
      rcases List.mem_cons.1 h with h | h
      · exact Or.inr (h ▸ List.mem_cons_self y ys)
      · rcases ih ys h with h' | h'
        · exact Or.inl h'
        · exact Or.inr (List.mem_cons_of_mem y h')

theorem hesLoop_head? (dec : ℕ → Bool) (ch : ℕ → ℕ) :
    ∀ (i : ℕ) (ws : List (List Char)), ws ≠ [] →
      (hesLoop dec ch i ws).head? = ws.head? ∧ hesLoop dec ch i ws ≠ [] := by
  intro i
  induction i with
  | zero => intro ws h; exact ⟨rfl, h⟩
  | succ m ih =>
    intro ws h
    rw [hesLoop]
    by_cases hd : dec (m + 1) = true
    · rw [if_pos hd]
      rcases ih _ (insIdx_ne_nil _ _ ws) with ⟨h1, h2⟩
      exact ⟨h1.trans (insIdx_head? m _ ws h), h2⟩
    · rw [if_neg hd]
      exact ih ws h

theorem hesLoop_mem (dec : ℕ → Bool) (ch : ℕ → ℕ) :
    ∀ (i : ℕ) (ws : List (List Char)) (tok : List Char),
      tok ∈ hesLoop dec ch i ws → tok ∈ ws ∨ tok ∈ hesitation_markers := by
  intro i
  induction i with
  | zero => intro ws tok h; exact Or.inl h
  | succ m ih =>
    intro ws tok h
    rw [hesLoop] at h
    by_cases hd : dec (m + 1) = true
    · rw [if_pos hd] at h
      rcases ih _ tok h with h' | h'
      · rcases mem_insIdx _ _ h' with h'' | h''
        · refine Or.inr (h'' ▸ ?_)
          have h4 : (ch (m + 1)) % 4 < 4 := Nat.mod_lt _ (by omega)
          interval_cases h5 : (ch (m + 1)) % 4 <;> simp [hesitation_markers, h5]
        · exact Or.inl h''
      · exact Or.inr h'
    · rw [if_neg hd] at h
      exact ih ws tok h

theorem pySplitAux_token_append (tok : List Char) :
    ∀ cur l, (∀ c ∈ tok, isWs c = false) →
      pySplitAux cur (tok ++ l) = pySplitAux (tok.reverse ++ cur) l := by
  induction tok with
  | nil => intro cur l _; rfl
  | cons c t ih =>
    intro cur l htok
    have hc : isWs c = false := htok c (List.mem_cons_self c t)
    rw [List.cons_append, pySplitAux, if_neg (by simp [hc])]
    rw [ih (c :: cur) l (fun d hd => htok d (List.mem_cons_of_mem c hd))]
    simp

theorem pySplit_joinSep (toks : List (List Char))
    (h : ∀ tok ∈ toks, tok ≠ [] ∧ ∀ c ∈ tok, isWs c = false) :
    pySplit (joinSep [' '] toks) = toks := by
  induction toks with
  | nil => rfl
  | cons t ts ih =>
    rcases h t (List.mem_cons_self t ts) with ⟨ht1, ht2⟩
    cases ts with
    | nil =>
      show pySplitAux [] (joinSep [' '] [t]) = [t]
      have : joinSep [' '] [t] = t ++ [] := by simp [joinSep]
      rw [this, pySplitAux_token_append t [] [] ht2]
      simp [pySplitAux, ht1]
    | cons t2 r =>
      show pySplitAux [] (joinSep [' '] (t :: t2 :: r)) = t :: t2 :: r
      rw [joinSep, List.append_assoc, pySplitAux_token_append t [] _ ht2]
      have hrev : t.reverse ++ [] ≠ [] := by simpa using ht1
      show pySplitAux (t.reverse ++ []) ([' '] ++ joinSep [' '] (t2 :: r)) = t :: t2 :: r
      rw [List.singleton_append, pySplitAux, if_pos (by decide), if_neg hrev]
      have hih := ih (fun tok htok => h tok (List.mem_cons_of_mem t htok))
      unfold pySplit at hih
      rw [hih]
      simp

/-- C6: on any text with at least one whitespace token, and for every
random outcome, the hesitation operation's output tokenises exactly as the
insertion loop's token list (insertions happen only at indices ≥ 1) and
its first token equals the input's first token. -/
theorem hesitation_keeps_first_token (t : List Char) (dec : ℕ → Bool) (ch : ℕ → ℕ)
    (h : pySplit t ≠ []) :
    pySplit (introduce_natural_hesitation t dec ch) =
      hesLoop dec ch ((pySplit t).length - 1) (pySplit t) ∧
    (pySplit (introduce_natural_hesitation t dec ch)).head? = (pySplit t).head? := by
  have hmem : ∀ tok ∈ hesLoop dec ch ((pySplit t).length - 1) (pySplit t),
      tok ≠ [] ∧ ∀ c ∈ tok, isWs c = false := by
    intro tok htok
    rcases hesLoop_mem dec ch _ _ tok htok with h' | h'
    · exact pySplit_tokens t tok h'
    · fin_cases h' <;> exact ⟨by decide, by decide⟩
  have hrt : pySplit (introduce_natural_hesitation t dec ch) =
      hesLoop dec ch ((pySplit t).length - 1) (pySplit t) := by
    unfold introduce_natural_hesitation
    exact pySplit_joinSep _ hmem
  refine ⟨hrt, ?_⟩
  rw [hrt]
  exact (hesLoop_head? dec ch _ _ h).1

/-- Witness for `hesitation_keeps_first_token` at a concrete call. -/
theorem hesitation_keeps_first_token_witness :
    pySplit (introduce_natural_hesitation "hello world".data (fun _ => true) (fun _ => 0)) =
      hesLoop (fun _ => true) (fun _ => 0) ((pySplit "hello world".data).length - 1)
        (pySplit "hello world".data) ∧
    (pySplit (introduce_natural_hesitation "hello world".data
        (fun _ => true) (fun _ => 0))).head? = (pySplit "hello world".data).head? :=
  hesitation_keeps_first_token "hello world".data (fun _ => true) (fun _ => 0) (by decide)

/-! ### Transition substitution: C5 -/

/-- Does the word `w` occur as a whole word somewhere in `l`, where `p`
says whether the character just before `l` is a word character? -/
def occursW (w : List Char) : Bool → List Char → Bool
  | _, [] => false
  | p, x :: xs => (!p && wordAt w (x :: xs)) || occursW w (isWordChar x) xs

/-- Does `w` occur as a whole word starting inside `a`, allowing the match
to continue into the continuation `b`? -/
def occursFromW (w : List Char) : Bool → List Char → List Char → Bool
  | _, [], _ => false
  | p, x :: xs, b => (!p && wordAt w (x :: (xs ++ b))) || occursFromW w (isWordChar x) xs b

/-- The word-character flag after scanning past `a` (starting from `p`). -/
def flagAfter (p : Bool) (a : List Char) : Bool :=
  match a.getLast? with
  | some c => isWordChar c
  | none => p

/-- Could `w` match at the head of `rest` for some continuation appended
after `rest`? -/
def mayMatch (w rest : List Char) : Bool :=
  if rest.length < w.length then rest = w.take rest.length
  else wordAt w rest

/-- Could `w` occur as a whole word starting inside `a`, for some
continuation? -/
def mayOccursFromW (w : List Char) : Bool → List Char → Bool
  | _, [] => false
  | p, x :: xs => (!p && mayMatch w (x :: xs)) || mayOccursFromW w (isWordChar x) xs

theorem flagAfter_cons (p : Bool) (x : Char) (xs : List Char) :
    flagAfter p (x :: xs) = flagAfter (isWordChar x) xs := by
  cases xs with
  | nil => rfl
  | cons y ys =>
    show flagAfter p (x :: y :: ys) = flagAfter (isWordChar x) (y :: ys)
    unfold flagAfter
    rw [List.getLast?_cons_cons]
    cases hgl : (y :: ys).getLast? with
    | none => simp at hgl
    | some c => rfl

theorem occursW_append (w : List Char) :
    ∀ (a : List Char) (p : Bool) (b : List Char),
      occursW w p (a ++ b) = (occursFromW w p a b || occursW w (flagAfter p a) b) := by
  intro a
  induction a with
  | nil => intro p b; simp [occursFromW, flagAfter]
  | cons x xs ih =>
    intro p b
    show occursW w p (x :: (xs ++ b)) = _
    rw [occursW, ih (isWordChar x) b, flagAfter_cons]
    rw [occursFromW]
    rw [Bool.or_assoc]

theorem wordAt_cons (c : Char) (wt : List Char) (y : Char) (ys : List Char) :
    wordAt (c :: wt) (y :: ys) = (decide (y = c) && wordAt wt ys) := by
  simp only [wordAt, List.length_cons, List.take_succ_cons, List.drop_succ_cons,
    List.cons.injEq]
  by_cases hyc : y = c
  · by_cases ht : ys.take wt.length = wt
    · simp [hyc, ht]
    · simp [hyc, ht]
  · simp [hyc]

theorem wordAt_nil_right (c : Char) (wt : List Char) :
    wordAt (c :: wt) [] = false := by
  simp [wordAt]

theorem mayMatch_of_wordAt_append {w a b : List Char}
    (h : wordAt w (a ++ b) = true) : mayMatch w a = true := by
  rw [wordAt, Bool.and_eq_true] at h
  obtain ⟨h1, h2⟩ := h
  unfold mayMatch
  by_cases hlen : a.length < w.length
  · rw [if_pos hlen]
    have hta : (a ++ b).take w.length = a ++ b.take (w.length - a.length) := by
      rw [List.take_append_eq_append_take, List.take_of_length_le (by omega)]
    rw [hta] at h1
    have heq : a ++ b.take (w.length - a.length) = w := of_decide_eq_true h1
    have hwa : w.take a.length = a := by
      have h3 := congrArg (List.take a.length) heq
      rw [List.take_append_of_le_length (le_refl _), List.take_length] at h3
      exact h3.symm
    exact decide_eq_true hwa.symm
  · rw [if_neg hlen]
    push_neg at hlen
    rw [wordAt, Bool.and_eq_true]
    refine ⟨?_, ?_⟩
    · rw [List.take_append_of_le_length hlen] at h1
      exact h1
    · rw [List.drop_append_of_le_length hlen] at h2
      cases hd : a.drop w.length with
      | nil => rfl
      | cons z zs =>
        rw [hd] at h2
        exact h2

theorem occursFromW_false_of_may (w : List Char) :
    ∀ (a : List Char) (p : Bool), mayOccursFromW w p a = false →
      ∀ b, occursFromW w p a b = false := by
  intro a
  induction a with
  | nil => intro p _ b; rfl
  | cons x xs ih =>
    intro p h b
    rw [mayOccursFromW, Bool.or_eq_false_iff] at h
    obtain ⟨h1, h2⟩ := h
    rw [occursFromW, Bool.or_eq_false_iff]
    refine ⟨?_, ih _ h2 b⟩
    cases hp : (!p) with
    | false => rw [Bool.false_and]
    | true =>
      rw [hp, Bool.true_and] at h1
      rw [Bool.true_and]
      cases hwa : wordAt w (x :: (xs ++ b)) with
      | false => rfl
      | true =>
        have hmm : mayMatch w (x :: xs) = true :=
          mayMatch_of_wordAt_append (a := x :: xs) (b := b) (by simpa using hwa)
        rw [hmm] at h1
        simp at h1

/-- Output of the scanner agrees with its input up to and including the
first non-word character, whenever the scanner starts in the
previous-character-is-a-word-character state. -/
inductive AgreeNW : List Char → List Char → Prop
  | nil : AgreeNW [] []
  | word {x : Char} {xs out : List Char} :
      isWordChar x = true → AgreeNW xs out → AgreeNW (x :: xs) (x :: out)
  | stop {x : Char} {xs out : List Char} :
      isWordChar x = false → AgreeNW (x :: xs) (x :: out)

theorem subScan_agree (ws reps : List (List Char)) (orc : ℕ → ℕ) :
    ∀ (fuel : ℕ) (k : ℕ) (l : List Char), l.length ≤ fuel →
      AgreeNW l (subScan ws reps orc fuel k true l) := by
  intro fuel
  induction fuel with
  | zero =>
    intro k l hlen
    have hl : l = [] := List.eq_nil_of_length_eq_zero (Nat.le_zero.1 hlen)
    subst hl
    exact AgreeNW.nil
  | succ fuel ih =>
    intro k l hlen
    cases l with
    | nil => exact AgreeNW.nil
    | cons x xs =>
      rw [subScan, if_pos rfl]
      cases hx : isWordChar x with
      | true => exact AgreeNW.word hx (ih k xs (by simpa using hlen))
      | false => exact AgreeNW.stop hx

theorem wordAt_of_agree :
    ∀ (w : List Char), (∀ c ∈ w, isWordChar c = true) →
      ∀ (l out : List Char), AgreeNW l out → wordAt w out = true → wordAt w l = true := by
  intro w
  induction w with
  | nil =>
    intro _ l out hag hout
    cases hag with
    | nil => simp [wordAt]
    | word hx h2 =>
      simp only [wordAt, List.take_nil, List.drop_zero] at hout
      simp [hx] at hout
    | stop hx =>
      simp [wordAt, hx]
  | cons c wt ih =>
    intro hw l out hag hout
    cases hag with
    | nil => rw [wordAt_nil_right] at hout; exact absurd hout (by simp)
    | word hx h2 =>
      rw [wordAt_cons, Bool.and_eq_true] at hout
      obtain ⟨hxc, hwt⟩ := hout
      rw [wordAt_cons, Bool.and_eq_true]
      exact ⟨hxc, ih (fun d hd => hw d (List.mem_cons_of_mem c hd)) _ _ h2 hwt⟩
    | stop hx =>
      rw [wordAt_cons, Bool.and_eq_true] at hout
      obtain ⟨hxc, -⟩ := hout
      have hxc' : _ = c := of_decide_eq_true hxc
      have : isWordChar c = true := hw c (List.mem_cons_self c wt)
      rw [hxc', this] at hx
      exact absurd hx (by simp)

theorem getD_mem' {α : Type} : ∀ (l : List α) (n : ℕ) (d : α), n < l.length →
    l.getD n d ∈ l := by
  intro l
  induction l with
  | nil => intro n d h; simp at h
  | cons a t ih =>
    intro n d h
    cases n with
    | zero => simp [List.getD]
    | succ m =>
      simp only [List.getD_cons_succ]
      exact List.mem_cons_of_mem a (ih m d (by simpa using h))

theorem flagAfter_all_word {a : List Char} (h1 : a ≠ [])
    (h2 : ∀ c ∈ a, isWordChar c = true) (p : Bool) : flagAfter p a = true := by
  unfold flagAfter
  cases hgl : a.getLast? with
  | none => exact absurd (List.getLast?_eq_none_iff.1 hgl) h1
  | some c =>
    obtain ⟨hne, hc⟩ := List.mem_getLast?_eq_getLast (Option.mem_def.mpr hgl)
    exact h2 c (hc ▸ List.getLast_mem hne)

/-- Core lemma for the `re.sub` scanner: if `w` is itself one of the
scanned-for words, or does not whole-word-occur in the input, and no
replacement phrase can host (or start) a whole-word occurrence of `w`,
then `w` does not whole-word-occur in the scanner's output.  `p` is the
scanner's previous-character flag, `q` the flag with which the occurrence
check enters the output; they agree except directly after a replacement,
where the input is then known to continue with a non-word character. -/
theorem subScan_no_occursW
    (ws reps : List (List Char)) (orc : ℕ → ℕ) (w : List Char)
    (hwne : w ≠ []) (hwchars : ∀ c ∈ w, isWordChar c = true)
    (hws : ∀ u ∈ ws, u ≠ [] ∧ ∀ c ∈ u, isWordChar c = true)
    (hrne : reps ≠ [])
    (hreps : ∀ r ∈ reps, ∀ b : Bool, mayOccursFromW w b r = false) :
    ∀ (fuel : ℕ) (l : List Char) (k : ℕ) (p q : Bool),
      l.length ≤ fuel →
      (q = p ∨ (p = true ∧ q = false ∧ (l = [] ∨ isWordChar (l.headD 'a') = false))) →
      (w ∈ ws ∨ occursW w p l = false) →
      occursW w q (subScan ws reps orc fuel k p l) = false := by
  intro fuel
  induction fuel with
  | zero =>
    intro l k p q hlen _ _
    have hl : l = [] := List.eq_nil_of_length_eq_zero (Nat.le_zero.1 hlen)
    subst hl
    rfl
  | succ fuel ih =>
    intro l k p q hlen hrel hocc
    cases l with
    | nil => rfl
    | cons x xs =>
      have hxs : xs.length ≤ fuel := by simpa using hlen
      have htail : w ∈ ws ∨ occursW w (isWordChar x) xs = false := by
        rcases hocc with h | h
        · exact Or.inl h
        · rw [occursW, Bool.or_eq_false_iff] at h
          exact Or.inr h.2
      cases p with
      | true =>
        rw [subScan, if_pos rfl, occursW]
        rw [Bool.or_eq_false_iff]
        refine ⟨?_, ih xs k (isWordChar x) (isWordChar x) hxs (Or.inl rfl) htail⟩
        rcases hrel with hq | ⟨-, hq, hhead⟩
        · subst hq
          rw [Bool.not_true, Bool.false_and]
        · subst hq
          rw [Bool.not_false, Bool.true_and]
          have hx : isWordChar x = false := by
            rcases hhead with h | h
            · exact absurd h (List.cons_ne_nil x xs)
            · simpa using h
          cases w with
          | nil => exact absurd rfl hwne
          | cons c wt =>
            rw [wordAt_cons]
            have hcx : decide (x = c) = false := by
              refine decide_eq_false fun he => ?_
              rw [he, hwchars c (List.mem_cons_self c wt)] at hx
              exact absurd hx (by simp)
            rw [hcx, Bool.false_and]
      | false =>
        have hq : q = false := by
          rcases hrel with hq | ⟨hpt, -, -⟩
          · exact hq
          · exact absurd hpt (by simp)
        subst hq
        rw [subScan, if_neg (by simp)]
        cases htw : tryWords ws (x :: xs) with
        | none =>
          rw [occursW, Bool.or_eq_false_iff]
          refine ⟨?_, ih xs k (isWordChar x) (isWordChar x) hxs (Or.inl rfl) htail⟩
          rw [Bool.not_false, Bool.true_and]
          cases hwa : wordAt w (x :: subScan ws reps orc fuel k (isWordChar x) xs) with
          | false => rfl
          | true =>
            exfalso
            cases w with
            | nil => exact hwne rfl
            | cons c wt =>
              rw [wordAt_cons, Bool.and_eq_true] at hwa
              obtain ⟨hxc, hwt⟩ := hwa
              have hxc' : x = c := of_decide_eq_true hxc
              have hxw : isWordChar x = true := by
                rw [hxc']
                exact hwchars c (List.mem_cons_self c wt)
              rw [hxw] at hwt
              have hag : AgreeNW xs (subScan ws reps orc fuel k true xs) :=
                subScan_agree ws reps orc fuel k xs hxs
              have hwtxs : wordAt wt xs = true :=
                wordAt_of_agree wt (fun d hd => hwchars d (List.mem_cons_of_mem c hd))
                  xs _ hag hwt
              have hfull : wordAt (c :: wt) (x :: xs) = true := by
                rw [wordAt_cons, hxc, Bool.true_and]
                exact hwtxs
              have hfind : ws.find? (fun u => !u.isEmpty && wordAt u (x :: xs)) = none := by
                unfold tryWords at htw
                cases hf : ws.find? (fun u => !u.isEmpty && wordAt u (x :: xs)) with
                | none => rfl
                | some u => rw [hf] at htw; exact absurd htw (by simp)
              rcases hocc with hmem | habs
              · have := List.find?_eq_none.1 hfind (c :: wt) hmem
                rw [hfull, Bool.and_true] at this
                simp [List.isEmpty] at this
              · rw [occursW, Bool.or_eq_false_iff] at habs
                obtain ⟨h1, -⟩ := habs
                rw [Bool.not_false, Bool.true_and, hfull] at h1
                exact absurd h1 (by simp)
        | some pr =>
          obtain ⟨w', rest⟩ := pr
          have hfind : ws.find? (fun u => !u.isEmpty && wordAt u (x :: xs)) = some w' ∧
              rest = (x :: xs).drop w'.length := by
            unfold tryWords at htw
            cases hf : ws.find? (fun u => !u.isEmpty && wordAt u (x :: xs)) with
            | none => rw [hf] at htw; exact absurd htw (by simp)
            | some u =>
              rw [hf] at htw
              injection htw with hu
              injection hu with h1 h2
              subst h1
              exact ⟨rfl, h2.symm⟩
          obtain ⟨hfind, hrest⟩ := hfind
          have hw'mem : w' ∈ ws := List.mem_of_find?_eq_some hfind
          have hw'pred := List.find?_some hfind
          rw [Bool.and_eq_true] at hw'pred
          obtain ⟨-, hw'at⟩ := hw'pred
          obtain ⟨hw'ne, hw'chars⟩ := hws w' hw'mem
          have hw'take : (x :: xs).take w'.length = w' := by
            rw [wordAt, Bool.and_eq_true] at hw'at
            exact of_decide_eq_true hw'at.1
          have hsplit : x :: xs = w' ++ rest := by
            rw [hrest]
            conv_lhs => rw [← List.take_append_drop w'.length (x :: xs)]
            rw [hw'take]
          have hbnd : rest = [] ∨ isWordChar (rest.headD 'a') = false := by
            rw [wordAt, Bool.and_eq_true] at hw'at
            have h2 := hw'at.2
            rw [← hrest] at h2
            cases hr : rest with
            | nil => exact Or.inl rfl
            | cons z zs =>
              right
              rw [hr] at h2
              simpa using h2
          have hrlen : rest.length ≤ fuel := by
            rw [hrest]
            have : w'.length ≥ 1 := by
              cases w' with
              | nil => exact absurd rfl hw'ne
              | cons _ _ => simp
            simp only [List.length_drop, List.length_cons]
            omega
          have hrep : reps.getD (orc k % reps.length) [] ∈ reps := by
            refine getD_mem' reps _ _ (Nat.mod_lt _ ?_)
            cases reps with
            | nil => exact absurd rfl hrne
            | cons _ _ => simp
          rw [occursW_append]
          rw [Bool.or_eq_false_iff]
          constructor
          · exact occursFromW_false_of_may w _ false
              (hreps _ hrep false) _
          · refine ih rest (k + 1) true (flagAfter false (reps.getD (orc k % reps.length) []))
              hrlen ?_ ?_
            · cases hfa : flagAfter false (reps.getD (orc k % reps.length) []) with
              | true => exact Or.inl rfl
              | false => exact Or.inr ⟨rfl, rfl, hbnd⟩
            · rcases hocc with hmem | habs
              · exact Or.inl hmem
              · rw [hsplit, occursW_append, Bool.or_eq_false_iff] at habs
                obtain ⟨-, h2⟩ := habs
                rw [flagAfter_all_word hw'ne hw'chars false] at h2
                exact Or.inr h2

theorem transitions_remove_connectives_core :
    ∀ (t : List Char) (o1 o2 : ℕ → ℕ) (w : List Char), w ∈ group1 ++ group2 →
      occursW w false (add_professional_transitions t o1 o2) = false := by
  have hall : ∀ u ∈ group1 ++ group2, u ≠ [] ∧ ∀ c ∈ u, isWordChar c = true := by decide
  have hg1 : ∀ u ∈ group1, u ≠ [] ∧ ∀ c ∈ u, isWordChar c = true := by decide
  have hg2 : ∀ u ∈ group2, u ≠ [] ∧ ∀ c ∈ u, isWordChar c = true := by decide
  have hmay1 : ∀ w ∈ group1, ∀ r ∈ reps1, ∀ b : Bool, mayOccursFromW w b r = false := by
    decide
  have hmay2 : ∀ w ∈ group1 ++ group2, ∀ r ∈ reps2, ∀ b : Bool,
      mayOccursFromW w b r = false := by decide
  intro t o1 o2 w hw
  obtain ⟨hwne, hwchars⟩ := hall w hw
  unfold add_professional_transitions subPass
  rcases List.mem_append.1 hw with h1 | h2
  · have habs1 : occursW w false (subScan group1 reps1 o1 t.length 0 false t) = false :=
      subScan_no_occursW group1 reps1 o1 w hwne hwchars hg1 (by decide)
        (fun r hr b => hmay1 w h1 r hr b) t.length t 0 false false (le_refl _)
        (Or.inl rfl) (Or.inl h1)
    exact subScan_no_occursW group2 reps2 o2 w hwne hwchars hg2 (by decide)
      (fun r hr b => hmay2 w hw r hr b) _ _ 0 false false (le_refl _)
      (Or.inl rfl) (Or.inr habs1)
  · exact subScan_no_occursW group2 reps2 o2 w hwne hwchars hg2 (by decide)
      (fun r hr b => hmay2 w hw r hr b) _ _ 0 false false (le_refl _)
      (Or.inl rfl) (Or.inl h2)

/-- C5: for every input text and every random outcome, after the
transition-substitution operation no whole-word occurrence of any of the
five connective words (`Furthermore`, `Moreover`, `Additionally`,
`However`, `Nevertheless`) survives in the output. -/
theorem transitions_remove_connective_words (t : List Char) (o1 o2 : ℕ → ℕ)
    (w : List Char) (hw : w ∈ group1 ++ group2) :
    occursW w false (add_professional_transitions t o1 o2) = false :=
  transitions_remove_connectives_core t o1 o2 w hw

/-- Witness for `transitions_remove_connective_words` at a concrete call. -/
theorem transitions_remove_connective_words_witness :
    occursW "However".data false
      (add_professional_transitions "Furthermore, However and Nevertheless stay?".data
        (fun _ => 0) (fun _ => 0)) = false :=
  transitions_remove_connective_words _ (fun _ => 0) (fun _ => 0) "However".data
    (by decide)

/-! ### Sentence-count measure for C4 -/

/-- Does `l` contain a non-whitespace character? -/
def hasNonWs (l : List Char) : Bool :=
  l.any (fun c => !isWs c)

/-- Number of interior sentence boundaries: positions where a whitespace
character directly follows a terminal punctuation character and some
non-whitespace text still follows.  `p` is the previous character. -/
def countIB : Char → List Char → ℕ
  | _, [] => 0
  | p, x :: xs =>
    (if isTerm p && isWs x && hasNonWs xs then 1 else 0) + countIB x xs

theorem isTerm_eq_false_of_isWs {c : Char} (h : isWs c = true) : isTerm c = false := by
  simp only [isWs, Bool.or_eq_true, decide_eq_true_eq] at h
  rcases h with ((((h | h) | h) | h) | h) | h <;> subst h <;> rfl

theorem isWs_eq_false_of_wordChar {c : Char} (h : isWordChar c = true) : isWs c = false := by
  cases hw : isWs c with
  | false => rfl
  | true =>
    exfalso
    simp only [isWs, Bool.or_eq_true, decide_eq_true_eq] at hw
    rcases hw with ((((hh | hh) | hh) | hh) | hh) | hh <;> subst hh <;>
      exact absurd h (by decide)

theorem isTerm_eq_false_of_wordChar {c : Char} (h : isWordChar c = true) :
    isTerm c = false := by
  cases hw : isTerm c with
  | false => rfl
  | true =>
    exfalso
    simp only [isTerm, Bool.or_eq_true, decide_eq_true_eq] at hw
    rcases hw with (hh | hh) | hh <;> subst hh <;> exact absurd h (by decide)

theorem countIB_congr (l : List Char) {p p' : Char} (h : isTerm p = isTerm p') :
    countIB p l = countIB p' l := by
  cases l with
  | nil => rfl
  | cons x xs => rw [countIB, countIB, h]

theorem hasNonWs_ne_nil {l : List Char} (h : hasNonWs l = true) : l ≠ [] := by
  intro hl
  subst hl
  exact absurd h (by decide)

theorem hasNonWs_of_head {l : List Char} (h1 : l ≠ []) (h2 : isWs (l.headD 'a') = false) :
    hasNonWs l = true := by
  cases l with
  | nil => exact absurd rfl h1
  | cons x xs =>
    simp only [List.headD_cons] at h2
    simp [hasNonWs, h2]

theorem hasNonWs_append (a b : List Char) :
    hasNonWs (a ++ b) = (hasNonWs a || hasNonWs b) := by
  simp [hasNonWs]

theorem countIB_noWs (l : List Char) (h : ∀ c ∈ l, isWs c = false) :
    ∀ p, countIB p l = 0 := by
  induction l with
  | nil => intro p; rfl
  | cons x xs ih =>
    intro p
    rw [countIB, h x (List.mem_cons_self x xs)]
    simpa using ih (fun c hc => h c (List.mem_cons_of_mem x hc)) x

theorem countIB_allWs (l : List Char) (h : ∀ c ∈ l, isWs c = true) :
    ∀ p, countIB p l = 0 := by
  induction l with
  | nil => intro p; rfl
  | cons x xs ih =>
    intro p
    have hnw : hasNonWs xs = false := by
      simp only [hasNonWs, List.any_eq_false, Bool.not_eq_true]
      intro c hc
      simp [h c (List.mem_cons_of_mem x hc)]
    rw [countIB, hnw]
    simpa using ih (fun c hc => h c (List.mem_cons_of_mem x hc)) x

theorem countIB_append_noWs (a : List Char) (ha : ∀ c ∈ a, isWs c = false) :
    ∀ (p : Char) (b : List Char), countIB p (a ++ b) = countIB (a.getLastD p) b := by
  induction a with
  | nil => intro p b; rfl
  | cons x a' ih =>
    intro p b
    show countIB p (x :: (a' ++ b)) = _
    rw [countIB, ha x (List.mem_cons_self x a'), List.getLastD_cons]
    simpa using ih (fun c hc => ha c (List.mem_cons_of_mem x hc)) x b

theorem countIB_append_ge (a : List Char) :
    ∀ (p : Char) (b : List Char), countIB (a.getLastD p) b ≤ countIB p (a ++ b) := by
  induction a with
  | nil => intro p b; exact le_refl _
  | cons x a' ih =>
    intro p b
    show _ ≤ countIB p (x :: (a' ++ b))
    rw [countIB, List.getLastD_cons]
    calc countIB (a'.getLastD x) b ≤ countIB x (a' ++ b) := ih x b
    _ ≤ _ := Nat.le_add_left _ _

theorem countIB_append_allWs (r : List Char) (hr : ∀ c ∈ r, isWs c = true) :
    ∀ (a : List Char) (p : Char), countIB p (a ++ r) = countIB p a := by
  intro a
  induction a with
  | nil =>
    intro p
    rw [List.nil_append, countIB_allWs r hr p]
    rfl
  | cons x a' ih =>
    intro p
    show countIB p (x :: (a' ++ r)) = countIB p (x :: a')
    rw [countIB, countIB, ih x]
    have hr0 : hasNonWs r = false := by
      simp only [hasNonWs, List.any_eq_false, Bool.not_eq_true]
      intro c hc
      simp [hr c hc]
    rw [hasNonWs_append, hr0, Bool.or_false]

theorem countIB_dropWhile_ws (l : List Char) :
    ∀ p, isTerm p = false → countIB p l = countIB 'a' (l.dropWhile isWs) := by
  induction l with
  | nil => intro p _; rfl
  | cons x xs ih =>
    intro p hp
    cases hx : isWs x with
    | true =>
      rw [countIB, hp, List.dropWhile_cons_of_pos (by simp [hx])]
      simpa using ih x (isTerm_eq_false_of_isWs hx)
    | false =>
      rw [List.dropWhile_cons_of_neg (by simp [hx])]
      rw [countIB, countIB, hp]
      rfl

/-- The text does not end in whitespace (holds after `strip`). -/
def notTrailWs (l : List Char) : Prop :=
  l = [] ∨ isWs (l.getLastD 'a') = false

theorem getLastD_indep {α : Type} (l : List α) (h : l ≠ []) (d d' : α) :
    l.getLastD d = l.getLastD d' := by
  cases l with
  | nil => exact absurd rfl h
  | cons x xs => rw [List.getLastD_cons, List.getLastD_cons]

theorem getLastD_cons_of_ne_nil {α : Type} (x : α) (xs : List α) (h : xs ≠ []) (d : α) :
    (x :: xs).getLastD d = xs.getLastD d := by
  rw [List.getLastD_cons]
  exact getLastD_indep xs h x d

theorem notTrailWs_tail {x : Char} {xs : List Char} (h : notTrailWs (x :: xs)) :
    notTrailWs xs := by
  cases hxs : xs with
  | nil => exact Or.inl rfl
  | cons y ys =>
    rcases h with h | h
    · exact absurd h (List.cons_ne_nil x xs)
    · right
      rw [hxs] at h
      rwa [getLastD_cons_of_ne_nil x (y :: ys) (List.cons_ne_nil y ys) 'a'] at h

theorem hasNonWs_of_notTrail {l : List Char} (h : notTrailWs l) (hne : l ≠ []) :
    hasNonWs l = true := by
  rcases h with h | h
  · exact absurd h hne
  · have hlast : l.getLastD 'a' ∈ l := by
      cases l with
      | nil => exact absurd rfl hne
      | cons x xs =>
        rw [List.getLastD_eq_getLast?, List.getLast?_eq_getLast_of_ne_nil (List.cons_ne_nil x xs)]
        exact List.getLast_mem _
    simp only [hasNonWs, List.any_eq_true]
    refine ⟨l.getLastD 'a', hlast, ?_⟩
    rw [h]
    rfl

theorem trail_content {x : Char} {xs : List Char} (h : notTrailWs (x :: xs))
    (hx : isWs x = true) : xs ≠ [] ∧ hasNonWs xs = true := by
  rcases h with h | h
  · exact absurd h (List.cons_ne_nil x xs)
  · cases hxs : xs with
    | nil =>
      subst hxs
      simp only [List.getLastD_cons, List.getLastD_nil] at h
      rw [hx] at h
      exact absurd h (by simp)
    | cons y ys =>
      subst hxs
      have hlast : isWs ((y :: ys).getLastD 'a') = false := by
        rwa [getLastD_cons_of_ne_nil x (y :: ys) (List.cons_ne_nil y ys) 'a'] at h
      exact ⟨List.cons_ne_nil y ys,
        hasNonWs_of_notTrail (Or.inr hlast) (List.cons_ne_nil y ys)⟩

theorem head_dropWhile_false (p : Char → Bool) (l : List Char) :
    ∀ y ys, l.dropWhile p = y :: ys → p y = false := by
  induction l with
  | nil => intro y ys h; exact absurd h (by simp)
  | cons x xs ih =>
    intro y ys h
    cases hx : p x with
    | true =>
      rw [List.dropWhile_cons_of_pos (by simp [hx])] at h
      exact ih y ys h
    | false =>
      rw [List.dropWhile_cons_of_neg (by simp [hx])] at h
      injection h with h1 _
      rw [← h1]
      exact hx

theorem pyStrip_decomp (t : List Char) :
    t.dropWhile isWs =
      pyStrip t ++ ((t.dropWhile isWs).reverse.takeWhile isWs).reverse ∧
    (∀ c ∈ ((t.dropWhile isWs).reverse.takeWhile isWs).reverse, isWs c = true) := by
  constructor
  · have h := List.takeWhile_append_dropWhile (p := isWs) (l := (t.dropWhile isWs).reverse)
    have h2 := congrArg List.reverse h
    rw [List.reverse_append, List.reverse_reverse] at h2
    exact h2.symm
  · intro c hc
    rw [List.mem_reverse] at hc
    exact List.mem_takeWhile_imp hc

theorem notTrailWs_pyStrip (t : List Char) : notTrailWs (pyStrip t) := by
  unfold pyStrip
  cases hd : (t.dropWhile isWs).reverse.dropWhile isWs with
  | nil => exact Or.inl rfl
  | cons y ys =>
    right
    rw [List.reverse_cons, List.getLastD_concat]
    exact head_dropWhile_false isWs _ y ys hd

theorem countIB_pyStrip (t : List Char) :
    countIB 'a' (pyStrip t) = countIB 'a' t := by
  obtain ⟨hdec, hws⟩ := pyStrip_decomp t
  rw [countIB_dropWhile_ws t 'a' rfl, hdec, countIB_append_allWs _ hws]

theorem hasNonWs_pyStrip (t : List Char) :
    hasNonWs (pyStrip t) = hasNonWs t := by
  obtain ⟨hdec, hws⟩ := pyStrip_decomp t
  have htail : hasNonWs ((t.dropWhile isWs).reverse.takeWhile isWs).reverse = false := by
    simp only [hasNonWs, List.any_eq_false, Bool.not_eq_true]
    intro c hc
    simp [hws c hc]
  have hdrop : hasNonWs (t.dropWhile isWs) = hasNonWs t := by
    conv_rhs => rw [← List.takeWhile_append_dropWhile (p := isWs) (l := t)]
    rw [hasNonWs_append]
    have : hasNonWs (t.takeWhile isWs) = false := by
      simp only [hasNonWs, List.any_eq_false, Bool.not_eq_true]
      intro c hc
      simp [List.mem_takeWhile_imp hc]
    rw [this, Bool.false_or]
  rw [← hdrop, hdec, hasNonWs_append, htail, Bool.or_false]

theorem headTerm_eq (acc : List Char) : headTerm acc = isTerm (acc.headD 'a') := by
  cases acc with
  | nil => rfl
  | cons a t => rfl

theorem countIB_cons_of_pair_false {p x : Char} (xs : List Char)
    (h : (isTerm p && isWs x) = false) : countIB p (x :: xs) = countIB x xs := by
  rw [countIB, h, Bool.false_and]
  simp

theorem countIB_cons_of_pair_true {p x : Char} {xs : List Char} (h1 : isTerm p = true)
    (h2 : isWs x = true) (h3 : hasNonWs xs = true) :
    countIB p (x :: xs) = 1 + countIB x xs := by
  rw [countIB, h1, h2, h3]
  simp

theorem sentAux_length :
    ∀ (l : List Char) (mode : Bool) (acc : List Char), notTrailWs l →
      (sentAux mode acc l).length =
        countIB (if mode then ' ' else acc.headD 'a') l + 1 := by
  intro l
  induction l with
  | nil => intro mode acc _; cases mode <;> rfl
  | cons x xs ih =>
    intro mode acc hnt
    cases mode with
    | true =>
      cases hx : isWs x with
      | true =>
        rw [sentAux, if_pos (by simp [hx]), ih true acc (notTrailWs_tail hnt)]
        show countIB ' ' xs + 1 = countIB ' ' (x :: xs) + 1
        rw [countIB_cons_of_pair_false xs (by rfl)]
        rw [countIB_congr xs (show isTerm ' ' = isTerm x from by
          rw [isTerm_eq_false_of_isWs hx]; rfl)]
      | false =>
        rw [sentAux, if_neg (by simp [hx]), ih false [x] (notTrailWs_tail hnt)]
        show countIB ([x].headD 'a') xs + 1 = countIB ' ' (x :: xs) + 1
        rw [countIB_cons_of_pair_false xs (by rfl)]
        rfl
    | false =>
      cases hc : isWs x && headTerm acc with
      | true =>
        rw [Bool.and_eq_true] at hc
        obtain ⟨hx, hterm⟩ := hc
        rw [sentAux, if_pos (by simp [hx, hterm]), List.length_cons,
          ih true [] (notTrailWs_tail hnt)]
        show countIB ' ' xs + 1 + 1 = countIB (acc.headD 'a') (x :: xs) + 1
        rw [countIB_cons_of_pair_true (by rw [← headTerm_eq]; exact hterm) hx
          (trail_content hnt hx).2]
        rw [countIB_congr xs (show isTerm ' ' = isTerm x from by
          rw [isTerm_eq_false_of_isWs hx]; rfl)]
        omega
      | false =>
        have hpair : (isTerm (acc.headD 'a') && isWs x) = false := by
          rw [headTerm_eq] at hc
          rw [Bool.and_comm]
          exact hc
        rw [sentAux, if_neg (by simp [hc]), ih false (x :: acc) (notTrailWs_tail hnt)]
        show countIB ((x :: acc).headD 'a') xs + 1 = countIB (acc.headD 'a') (x :: xs) + 1
        rw [countIB_cons_of_pair_false xs hpair]
        rfl

theorem sentence_count_eq (t : List Char) :
    sentence_count t = countIB 'a' t + 1 := by
  unfold sentence_count simple_sentence_split
  rw [sentAux_length (pyStrip t) false [] (notTrailWs_pyStrip t)]
  show countIB ([].headD 'a') (pyStrip t) + 1 = _
  rw [List.headD_nil, countIB_pyStrip]

theorem sentAux_ne_nil : ∀ (l : List Char) (mode : Bool) (acc : List Char),
    sentAux mode acc l ≠ [] := by
  intro l
  induction l with
  | nil => intro mode acc; cases mode <;> simp [sentAux]
  | cons x xs ih =>
    intro mode acc
    cases mode with
    | true =>
      rw [sentAux]
      by_cases hx : isWs x = true
      · rw [if_pos (by simp [hx])]; exact ih true acc
      · rw [if_neg (by simpa using hx)]; exact ih false [x]
    | false =>
      rw [sentAux]
      by_cases hc : (isWs x && headTerm acc) = true
      · rw [if_pos (by simp [hc])]; exact List.cons_ne_nil _ _
      · rw [if_neg (by simpa using hc)]; exact ih false (x :: acc)

theorem headD_append_left {α : Type} (a b : List α) (h : a ≠ []) (d : α) :
    (a ++ b).headD d = a.headD d := by
  cases a with
  | nil => exact absurd rfl h
  | cons x xs => rfl

theorem headD_reverse (l : List Char) (d : Char) : l.reverse.headD d = l.getLastD d := by
  induction l with
  | nil => rfl
  | cons x xs ih =>
    rw [List.reverse_cons, List.getLastD_cons]
    cases hxs : xs with
    | nil => rfl
    | cons y ys =>
      rw [headD_append_left _ _ (by simp [hxs]) d, ← hxs, ih]
      exact getLastD_indep xs (by simp [hxs]) d x

theorem getLastD_reverse (l : List Char) (d : Char) :
    l.reverse.getLastD d = l.headD d := by
  have h := headD_reverse l.reverse d
  rw [List.reverse_reverse] at h
  exact h.symm

theorem head_pyStrip (t : List Char) :
    pyStrip t = [] ∨ isWs ((pyStrip t).headD 'a') = false := by
  obtain ⟨hdec, -⟩ := pyStrip_decomp t
  cases hp : pyStrip t with
  | nil => exact Or.inl rfl
  | cons y ys =>
    right
    rw [hp] at hdec
    rw [List.cons_append] at hdec
    have := head_dropWhile_false isWs t y (ys ++ _) hdec
    simpa using this

/-- Every element but the last ends in terminal punctuation. -/
def allButLastEndTerm : List (List Char) → Prop
  | [] => True
  | [_] => True
  | s :: t :: r => isTerm (s.getLastD 'a') = true ∧ allButLastEndTerm (t :: r)

theorem ablet_cons {s : List Char} {r : List (List Char)}
    (hs : isTerm (s.getLastD 'a') = true) (hr : allButLastEndTerm r) :
    allButLastEndTerm (s :: r) := by
  cases r with
  | nil => trivial
  | cons t r' => exact ⟨hs, hr⟩

theorem sentAux_segs :
    ∀ (l : List Char) (mode : Bool) (acc : List Char),
      notTrailWs l →
      (mode = true → acc = [] ∧ hasNonWs l = true) →
      (mode = false → (acc ≠ [] ∧ isWs (acc.getLastD 'a') = false) ∨
        (acc = [] ∧ l ≠ [] ∧ isWs (l.headD 'a') = false)) →
      (∀ s ∈ sentAux mode acc l, s ≠ [] ∧ isWs (s.headD 'a') = false) ∧
      allButLastEndTerm (sentAux mode acc l) := by
  intro l
  induction l with
  | nil =>
    intro mode acc hnt hsk hnm
    cases mode with
    | true => exact absurd (hsk rfl).2 (by decide)
    | false =>
      rcases hnm rfl with ⟨hne, hlast⟩ | ⟨-, hlne, -⟩
      · refine ⟨?_, trivial⟩
        intro s hs
        simp only [sentAux, List.mem_singleton] at hs
        subst hs
        refine ⟨by simpa using hne, ?_⟩
        rw [headD_reverse]
        exact hlast
      · exact absurd rfl hlne
  | cons x xs ih =>
    intro mode acc hnt hsk hnm
    cases mode with
    | true =>
      obtain ⟨hacc, hnw⟩ := hsk rfl
      subst hacc
      cases hx : isWs x with
      | true =>
        rw [sentAux, if_pos (by simp [hx])]
        refine ih true [] (notTrailWs_tail hnt) (fun _ => ⟨rfl, ?_⟩)
          (fun h => Bool.noConfusion h)
        simp only [hasNonWs, List.any_cons, hx] at hnw
        simpa [hasNonWs] using hnw
      | false =>
        rw [sentAux, if_neg (by simp [hx])]
        exact ih false [x] (notTrailWs_tail hnt) (fun h => Bool.noConfusion h)
          (fun _ => Or.inl ⟨List.cons_ne_nil x [], by simpa using hx⟩)
    | false =>
      cases hc : isWs x && headTerm acc with
      | true =>
        rw [Bool.and_eq_true] at hc
        obtain ⟨hx, hterm⟩ := hc
        have hane : acc ≠ [] := by
          intro h
          rw [h] at hterm
          exact absurd hterm (by decide)
        rcases hnm rfl with ⟨-, hlast⟩ | ⟨hae, -, -⟩
        · rw [sentAux, if_pos (by simp [hx, hterm])]
          obtain ⟨hxs_ne, hxs_nw⟩ := trail_content hnt hx
          obtain ⟨hrestP, hrestA⟩ := ih true [] (notTrailWs_tail hnt)
            (fun _ => ⟨rfl, hxs_nw⟩) (fun h => Bool.noConfusion h)
          constructor
          · intro s hs
            rcases List.mem_cons.1 hs with hs | hs
            · subst hs
              refine ⟨by simpa using hane, ?_⟩
              rw [headD_reverse]
              exact hlast
            · exact hrestP s hs
          · refine ablet_cons ?_ hrestA
            rw [getLastD_reverse, ← headTerm_eq]
            exact hterm
        · exact absurd hae hane
      | false =>
        rw [sentAux, if_neg (by simp [hc])]
        refine ih false (x :: acc) (notTrailWs_tail hnt) (fun h => Bool.noConfusion h)
          (fun _ => Or.inl ⟨List.cons_ne_nil x acc, ?_⟩)
        cases acc with
        | nil =>
          rcases hnm rfl with ⟨hne, -⟩ | ⟨-, -, hhead⟩
          · exact absurd rfl hne
          · simpa using hhead
        | cons a as =>
          rcases hnm rfl with ⟨-, hlast⟩ | ⟨hae, -, -⟩
          · rw [getLastD_cons_of_ne_nil x (a :: as) (List.cons_ne_nil a as) 'a']
            exact hlast
          · exact absurd hae (List.cons_ne_nil a as)

theorem joinSep_cons_cons (sep : List Char) (s t : List Char) (r : List (List Char)) :
    joinSep sep (s :: t :: r) = s ++ (sep ++ joinSep sep (t :: r)) := by
  rw [joinSep, List.append_assoc]

theorem hasNonWs_joinSep_head {s : List Char} (r : List (List Char))
    (hs : hasNonWs s = true) : hasNonWs (joinSep [' '] (s :: r)) = true := by
  cases r with
  | nil => exact hs
  | cons t r' =>
    rw [joinSep_cons_cons, hasNonWs_append, hs, Bool.true_or]

theorem countIB_joinSep_ge :
    ∀ (segs : List (List Char)) (p : Char),
      (∀ s ∈ segs, hasNonWs s = true) → allButLastEndTerm segs →
      segs.length ≤ countIB p (joinSep [' '] segs) + 1 := by
  intro segs
  induction segs with
  | nil => intro p _ _; simp
  | cons s ts ih =>
    intro p hnw hab
    cases ts with
    | nil => simp
    | cons t r =>
      obtain ⟨hterm, hab'⟩ := hab
      have hsne : s ≠ [] := hasNonWs_ne_nil (hnw s (List.mem_cons_self s _))
      have hj : hasNonWs (joinSep [' '] (t :: r)) = true :=
        hasNonWs_joinSep_head r (hnw t (List.mem_cons_of_mem s (List.mem_cons_self t r)))
      have hih := ih ' ' (fun u hu => hnw u (List.mem_cons_of_mem s hu)) hab'
      have hdec : countIB (s.getLastD p) (' ' :: joinSep [' '] (t :: r)) =
          1 + countIB ' ' (joinSep [' '] (t :: r)) := by
        refine countIB_cons_of_pair_true ?_ rfl hj
        rw [getLastD_indep s hsne p 'a']
        exact hterm
      have hge := countIB_append_ge s p (' ' :: joinSep [' '] (t :: r))
      rw [hdec] at hge
      rw [joinSep_cons_cons, List.singleton_append]
      simp only [List.length_cons] at *
      omega

theorem mapIdxFrom_length {α β : Type} (f : ℕ → α → β) :
    ∀ (n : ℕ) (l : List α), (mapIdxFrom f n l).length = l.length := by
  intro n l
  induction l generalizing n with
  | nil => rfl
  | cons x xs ih => simp [mapIdxFrom, ih]

theorem mapIdxFrom_forall {α β : Type} {f : ℕ → α → β} {P : α → Prop} {Q : β → Prop}
    (hf : ∀ j s, P s → Q (f j s)) :
    ∀ (n : ℕ) (l : List α), (∀ s ∈ l, P s) → ∀ s' ∈ mapIdxFrom f n l, Q s' := by
  intro n l
  induction l generalizing n with
  | nil => intro _ s' hs'; simp [mapIdxFrom] at hs'
  | cons x xs ih =>
    intro hl s' hs'
    rcases List.mem_cons.1 hs' with h | h
    · exact h ▸ hf n x (hl x (List.mem_cons_self x xs))
    · exact ih (n + 1) (fun u hu => hl u (List.mem_cons_of_mem x hu)) s' h

theorem mapIdxFrom_ablet (f : ℕ → List Char → List Char)
    (hf : ∀ j s, s ≠ [] → isTerm (s.getLastD 'a') = true →
      isTerm ((f j s).getLastD 'a') = true) :
    ∀ (n : ℕ) (segs : List (List Char)), (∀ s ∈ segs, s ≠ []) →
      allButLastEndTerm segs → allButLastEndTerm (mapIdxFrom f n segs) := by
  intro n segs
  induction segs generalizing n with
  | nil => intro _ _; trivial
  | cons s ts ih =>
    intro hne hab
    cases ts with
    | nil => trivial
    | cons t r =>
      obtain ⟨hterm, hab'⟩ := hab
      show allButLastEndTerm (f n s :: f (n + 1) t :: mapIdxFrom f (n + 2) r)
      refine ⟨hf n s (hne s (List.mem_cons_self s _)) hterm, ?_⟩
      exact ih (n + 1) (fun u hu => hne u (List.mem_cons_of_mem s hu)) hab'

theorem seg_op_bound (f : ℕ → List Char → List Char)
    (hf1 : ∀ j s, hasNonWs s = true → hasNonWs (f j s) = true)
    (hf2 : ∀ j s, s ≠ [] → isTerm (s.getLastD 'a') = true →
      isTerm ((f j s).getLastD 'a') = true)
    (t : List Char) (ht : hasNonWs t = true) :
    sentence_count t ≤
      sentence_count (joinSep [' '] (mapIdxFrom f 0 (simple_sentence_split t))) ∧
    hasNonWs (joinSep [' '] (mapIdxFrom f 0 (simple_sentence_split t))) = true := by
  have hstrip_ne : pyStrip t ≠ [] :=
    hasNonWs_ne_nil (by rw [hasNonWs_pyStrip]; exact ht)
  have hstrip_head : isWs ((pyStrip t).headD 'a') = false := by
    rcases head_pyStrip t with h | h
    · exact absurd h hstrip_ne
    · exact h
  obtain ⟨hsegs, hab⟩ := sentAux_segs (pyStrip t) false [] (notTrailWs_pyStrip t)
    (fun h => Bool.noConfusion h) (fun _ => Or.inr ⟨rfl, hstrip_ne, hstrip_head⟩)
  have hsegs_nw : ∀ s ∈ simple_sentence_split t, hasNonWs s = true :=
    fun s hs => hasNonWs_of_head (hsegs s hs).1 (hsegs s hs).2
  have hmapped_nw : ∀ s' ∈ mapIdxFrom f 0 (simple_sentence_split t), hasNonWs s' = true :=
    mapIdxFrom_forall hf1 0 _ hsegs_nw
  have hmapped_ab : allButLastEndTerm (mapIdxFrom f 0 (simple_sentence_split t)) :=
    mapIdxFrom_ablet f hf2 0 _ (fun s hs => (hsegs s hs).1) hab
  constructor
  · have hlen := countIB_joinSep_ge (mapIdxFrom f 0 (simple_sentence_split t)) 'a'
      hmapped_nw hmapped_ab
    rw [mapIdxFrom_length f 0 (simple_sentence_split t)] at hlen
    rw [sentence_count_eq (joinSep [' '] (mapIdxFrom f 0 (simple_sentence_split t)))]
    exact hlen
  · cases hm : mapIdxFrom f 0 (simple_sentence_split t) with
    | nil =>
      exfalso
      have := mapIdxFrom_length f 0 (simple_sentence_split t)
      rw [hm] at this
      exact sentAux_ne_nil (pyStrip t) false []
        (List.eq_nil_of_length_eq_zero this.symm)
    | cons s' ts' =>
      rw [hasNonWs_joinSep_head ts'
        (hmapped_nw s' (hm ▸ List.mem_cons_self s' ts'))]

theorem getLastD_append_right {α : Type} (a : List α) {b : List α} (hb : b ≠ [])
    (d : α) : (a ++ b).getLastD d = b.getLastD d := by
  induction a generalizing d with
  | nil => rfl
  | cons x a' ih =>
    show (x :: (a' ++ b)).getLastD d = b.getLastD d
    rw [List.getLastD_cons, ih x]
    exact getLastD_indep b hb x d

theorem prepend_hasNonWs (a : List Char) {s : List Char} (hs : hasNonWs s = true) :
    hasNonWs (a ++ ' ' :: s) = true := by
  rw [hasNonWs_append]
  have : hasNonWs (' ' :: s) = true := by
    simp only [hasNonWs, List.any_cons] at hs ⊢
    rw [hs]
    simp
  rw [this, Bool.or_true]

theorem prepend_endsTerm (a : List Char) {s : List Char} (hne : s ≠ [])
    (hs : isTerm (s.getLastD 'a') = true) :
    isTerm ((a ++ ' ' :: s).getLastD 'a') = true := by
  rw [getLastD_append_right a (List.cons_ne_nil ' ' s) 'a',
    getLastD_cons_of_ne_nil ' ' s hne 'a']
  exact hs

theorem vary_sentence_structure_bound (t : List Char) (dec : ℕ → Bool) (ch : ℕ → ℕ)
    (ht : hasNonWs t = true) :
    sentence_count t ≤ sentence_count (vary_sentence_structure t dec ch) ∧
    hasNonWs (vary_sentence_structure t dec ch) = true := by
  refine seg_op_bound _ ?_ ?_ t ht
  · intro j s hs
    by_cases hd : (dec j && !(interjections.any (fun p => startsWithTok p s))) = true
    · rw [if_pos hd]
      exact prepend_hasNonWs _ hs
    · rw [if_neg hd]
      exact hs
  · intro j s hne hterm
    by_cases hd : (dec j && !(interjections.any (fun p => startsWithTok p s))) = true
    · rw [if_pos hd]
      exact prepend_endsTerm _ hne hterm
    · rw [if_neg hd]
      exact hterm

theorem add_contextual_nuance_bound (t : List Char) (dec : ℕ → Bool) (ch : ℕ → ℕ)
    (ht : hasNonWs t = true) :
    sentence_count t ≤ sentence_count (add_contextual_nuance t dec ch) ∧
    hasNonWs (add_contextual_nuance t dec ch) = true := by
  refine seg_op_bound _ ?_ ?_ t ht
  · intro j s hs
    by_cases hd : dec j = true
    · rw [if_pos hd]
      exact prepend_hasNonWs _ hs
    · rw [if_neg hd]
      exact hs
  · intro j s hne hterm
    by_cases hd : dec j = true
    · rw [if_pos hd]
      exact prepend_endsTerm _ hne hterm
    · rw [if_neg hd]
      exact hterm

theorem splitComma_ne_nil (s : List Char) : splitComma s ≠ [] := by
  cases s with
  | nil => simp [splitComma]
  | cons c rest =>
    rw [splitComma]
    by_cases hc : c = ','
    · rw [if_pos hc]; exact List.cons_ne_nil _ _
    · rw [if_neg hc]
      cases splitComma rest with
      | nil => exact List.cons_ne_nil _ _
      | cons r rs => exact List.cons_ne_nil _ _

theorem joinSep_splitComma (s : List Char) : joinSep [','] (splitComma s) = s := by
  induction s with
  | nil => rfl
  | cons c rest ih =>
    rw [splitComma]
    by_cases hc : c = ','
    · rw [if_pos hc]
      cases hps : splitComma rest with
      | nil => exact absurd hps (splitComma_ne_nil rest)
      | cons p r =>
        rw [hps] at ih
        show [] ++ [','] ++ joinSep [','] (p :: r) = c :: rest
        rw [List.nil_append, List.singleton_append, ih, hc]
    · rw [if_neg hc]
      cases hps : splitComma rest with
      | nil => exact absurd hps (splitComma_ne_nil rest)
      | cons r rs =>
        rw [hps] at ih
        cases rs with
        | nil =>
          show c :: r = c :: rest
          rw [show joinSep [','] [r] = r from rfl] at ih
          rw [ih]
        | cons r2 rs2 =>
          show (c :: r) ++ [','] ++ joinSep [','] (r2 :: rs2) = c :: rest
          rw [← ih]
          rfl

theorem commaTransform_hasNonWs (s : List Char) (h : hasNonWs s = true) :
    hasNonWs (commaTransform s) = true := by
  unfold commaTransform
  cases hps : splitComma s with
  | nil => exact h
  | cons p0 ps =>
    cases ps with
    | nil => exact h
    | cons p1 rest =>
      rw [hasNonWs_append, hasNonWs_append]
      rw [show hasNonWs " — ".data = true from rfl]
      simp

theorem commaTransform_endsTerm (s : List Char) (_hne : s ≠ [])
    (h : isTerm (s.getLastD 'a') = true) :
    isTerm ((commaTransform s).getLastD 'a') = true := by
  unfold commaTransform
  cases hps : splitComma s with
  | nil => exact h
  | cons p0 ps =>
    cases ps with
    | nil => exact h
    | cons p1 rest =>
      have hs : s = p0 ++ ([','] ++ joinSep [','] (p1 :: rest)) := by
        have hj := joinSep_splitComma s
        rw [hps, joinSep_cons_cons] at hj
        exact hj.symm
      cases hjr : joinSep [','] (p1 :: rest) with
      | nil =>
        exfalso
        rw [hjr] at hs
        rw [hs] at h
        rw [getLastD_append_right p0 (by simp) 'a'] at h
        exact absurd h (by decide)
      | cons z zs =>
        have hzne : joinSep [','] (p1 :: rest) ≠ [] := by rw [hjr]; exact List.cons_ne_nil z zs
        show isTerm ((p0 ++ " — ".data ++ joinSep [','] (p1 :: rest)).getLastD 'a') = true
        rw [List.append_assoc, getLastD_append_right p0
          (by simp [hjr]) 'a', getLastD_append_right " — ".data hzne 'a']
        rw [hs, getLastD_append_right p0 (by simp [hjr]) 'a',
          getLastD_append_right [','] hzne 'a'] at h
        exact h

theorem hasNonWs_collapseAux (c : Char) (hc : isWs c = false) :
    ∀ (l : List Char) (prev : Char), prev ≠ c →
      hasNonWs (collapseAux c prev l) = hasNonWs l := by
  intro l
  induction l with
  | nil => intro prev _; rfl
  | cons x xs ih =>
    intro prev hprev
    rw [collapseAux, if_neg (by simp [hprev])]
    by_cases hxc : x = c
    · subst hxc
      simp only [hasNonWs, List.any_cons]
      rw [show (!isWs x) = true from by rw [hc]; rfl]
      simp
    · simp only [hasNonWs, List.any_cons]
      rw [show List.any (collapseAux c x xs) (fun c => !isWs c) = hasNonWs (collapseAux c x xs)
        from rfl, show List.any xs (fun c => !isWs c) = hasNonWs xs from rfl]
      rw [ih x hxc]

theorem hasNonWs_collapseRun (c : Char) (hc : isWs c = false) (l : List Char) :
    hasNonWs (collapseRun c l) = hasNonWs l := by
  cases l with
  | nil => rfl
  | cons x xs =>
    by_cases hxc : x = c
    · subst hxc
      simp only [collapseRun, hasNonWs, List.any_cons]
      rw [show (!isWs x) = true from by rw [hc]; rfl]
      simp
    · simp only [collapseRun, hasNonWs, List.any_cons]
      rw [show List.any (collapseAux c x xs) (fun c => !isWs c) = hasNonWs (collapseAux c x xs)
        from rfl, show List.any xs (fun c => !isWs c) = hasNonWs xs from rfl]
      rw [hasNonWs_collapseAux c hc xs x hxc]

theorem countIB_collapseAux (c : Char) (hc : isWs c = false) :
    ∀ (l : List Char) (prev : Char), prev = c ∨ prev ≠ c →
      countIB prev (collapseAux c prev l) = countIB prev l := by
  intro l
  induction l with
  | nil => intro prev _; rfl
  | cons x xs ih =>
    intro prev _
    by_cases hpair : (x = c ∧ prev = c)
    · obtain ⟨hx1, hp1⟩ := hpair
      rw [collapseAux, if_pos (by simp [hx1, hp1])]
      have hxp : x = prev := by rw [hx1, hp1]
      subst hxp
      rw [ih x (Or.inl hx1)]
      rw [countIB_cons_of_pair_false xs (by rw [show isWs x = false from hx1 ▸ hc]; simp)]
    · rw [collapseAux, if_neg (by simpa using hpair)]
      cases hx : isWs x with
      | true =>
        have hxc : x ≠ c := by
          intro he
          rw [he, hc] at hx
          exact absurd hx (by simp)
        rw [countIB, countIB, hasNonWs_collapseAux c hc xs x hxc, ih x (Or.inr hxc)]
      | false =>
        rw [countIB_cons_of_pair_false _ (by rw [hx]; simp),
          countIB_cons_of_pair_false _ (by rw [hx]; simp), ih x (by tauto)]

theorem countIB_collapseRun (c : Char) (hc : isWs c = false) (l : List Char) (p : Char) :
    countIB p (collapseRun c l) = countIB p l := by
  cases l with
  | nil => rfl
  | cons x xs =>
    show countIB p (x :: collapseAux c x xs) = countIB p (x :: xs)
    cases hx : isWs x with
    | true =>
      have hxc : x ≠ c := by
        intro he
        rw [he, hc] at hx
        exact absurd hx (by simp)
      rw [countIB, countIB, hasNonWs_collapseAux c hc xs x hxc,
        countIB_collapseAux c hc xs x (Or.inr hxc)]
    | false =>
      rw [countIB_cons_of_pair_false _ (by rw [hx]; simp),
        countIB_cons_of_pair_false _ (by rw [hx]; simp),
        countIB_collapseAux c hc xs x (by tauto)]

theorem refine_punctuation_bound (t : List Char) (dec : ℕ → Bool)
    (ht : hasNonWs t = true) :
    sentence_count t ≤ sentence_count (refine_punctuation t dec) ∧
    hasNonWs (refine_punctuation t dec) = true := by
  have h1 : hasNonWs (collapseRun '?' (collapseRun '!' t)) = true := by
    rw [hasNonWs_collapseRun '?' rfl, hasNonWs_collapseRun '!' rfl]
    exact ht
  have hsc : sentence_count (collapseRun '?' (collapseRun '!' t)) = sentence_count t := by
    rw [sentence_count_eq, sentence_count_eq t, countIB_collapseRun '?' rfl,
      countIB_collapseRun '!' rfl]
  have hop := seg_op_bound (fun j s => if dec j then commaTransform s else s)
    (fun j s hs => by
      show hasNonWs (if dec j = true then commaTransform s else s) = true
      by_cases hd : dec j = true
      · rw [if_pos hd]; exact commaTransform_hasNonWs s hs
      · rw [if_neg hd]; exact hs)
    (fun j s hne hterm => by
      show isTerm ((if dec j = true then commaTransform s else s).getLastD 'a') = true
      by_cases hd : dec j = true
      · rw [if_pos hd]; exact commaTransform_endsTerm s hne hterm
      · rw [if_neg hd]; exact hterm)
    (collapseRun '?' (collapseRun '!' t)) h1
  rw [hsc] at hop
  exact hop

theorem subScan_hasNonWs (ws reps : List (List Char)) (orc : ℕ → ℕ)
    (_hws : ∀ u ∈ ws, u ≠ [] ∧ ∀ c ∈ u, isWordChar c = true)
    (hrne : reps ≠ [])
    (hreps : ∀ r ∈ reps, hasNonWs r = true) :
    ∀ (fuel : ℕ) (l : List Char) (k : ℕ) (p : Bool), l.length ≤ fuel →
      hasNonWs l = true → hasNonWs (subScan ws reps orc fuel k p l) = true := by
  intro fuel
  induction fuel with
  | zero => intro l k p _ h; exact h
  | succ fuel ih =>
    intro l k p hlen hnw
    cases l with
    | nil => exact hnw
    | cons x xs =>
      have hxs : xs.length ≤ fuel := by simpa using hlen
      have hcons : ∀ q : Bool, hasNonWs (x :: subScan ws reps orc fuel k q xs) = true := by
        intro q
        cases hx : isWs x with
        | false => simp [hasNonWs, hx]
        | true =>
          have hxsnw : hasNonWs xs = true := by
            simpa [hasNonWs, hx] using hnw
          simp only [hasNonWs, List.any_cons]
          rw [show List.any (subScan ws reps orc fuel k q xs) (fun c => !isWs c)
            = hasNonWs (subScan ws reps orc fuel k q xs) from rfl]
          rw [ih xs k q hxs hxsnw]
          simp
      cases p with
      | true =>
        rw [subScan, if_pos rfl]
        exact hcons (isWordChar x)
      | false =>
        rw [subScan, if_neg (by simp)]
        cases htw : tryWords ws (x :: xs) with
        | none => exact hcons (isWordChar x)
        | some pr =>
          obtain ⟨w', rest⟩ := pr
          have hrep : reps.getD (orc k % reps.length) [] ∈ reps := by
            refine getD_mem' reps _ _ (Nat.mod_lt _ ?_)
            cases reps with
            | nil => exact absurd rfl hrne
            | cons _ _ => simp
          rw [hasNonWs_append, hreps _ hrep, Bool.true_or]

theorem subScan_countIB_ge (ws reps : List (List Char)) (orc : ℕ → ℕ)
    (hws : ∀ u ∈ ws, u ≠ [] ∧ ∀ c ∈ u, isWordChar c = true)
    (hrne : reps ≠ [])
    (hreps : ∀ r ∈ reps, r ≠ [] ∧ hasNonWs r = true ∧ isTerm (r.getLastD 'a') = false) :
    ∀ (fuel : ℕ) (l : List Char) (k : ℕ) (p : Bool) (q : Char), l.length ≤ fuel →
      countIB q l ≤ countIB q (subScan ws reps orc fuel k p l) := by
  intro fuel
  induction fuel with
  | zero => intro l k p q _; exact le_refl _
  | succ fuel ih =>
    intro l k p q hlen
    cases l with
    | nil => exact le_refl _
    | cons x xs =>
      have hxs : xs.length ≤ fuel := by simpa using hlen
      have hcons : ∀ pb : Bool,
          countIB q (x :: xs) ≤ countIB q (x :: subScan ws reps orc fuel k pb xs) := by
        intro pb
        rw [countIB, countIB]
        have hpair : (if isTerm q && isWs x && hasNonWs xs then 1 else 0) ≤
            (if isTerm q && isWs x && hasNonWs (subScan ws reps orc fuel k pb xs)
              then 1 else 0) := by
          by_cases hcond : (isTerm q && isWs x && hasNonWs xs) = true
          · rw [Bool.and_eq_true, Bool.and_eq_true] at hcond
            obtain ⟨⟨h1, h2⟩, h3⟩ := hcond
            rw [subScan_hasNonWs ws reps orc hws hrne (fun r hr => (hreps r hr).2.1)
              fuel xs k pb hxs h3]
            simp [h1, h2, h3]
          · rw [if_neg hcond]
            exact Nat.zero_le _
        exact Nat.add_le_add hpair (ih xs k pb x hxs)
      cases p with
      | true =>
        rw [subScan, if_pos rfl]
        exact hcons (isWordChar x)
      | false =>
        rw [subScan, if_neg (by simp)]
        cases htw : tryWords ws (x :: xs) with
        | none => exact hcons (isWordChar x)
        | some pr =>
          obtain ⟨w', rest⟩ := pr
          have hinfo : ws.find? (fun u => !u.isEmpty && wordAt u (x :: xs)) = some w' ∧
              rest = (x :: xs).drop w'.length := by
            unfold tryWords at htw
            cases hf : ws.find? (fun u => !u.isEmpty && wordAt u (x :: xs)) with
            | none => rw [hf] at htw; exact absurd htw (by simp)
            | some u =>
              rw [hf] at htw
              injection htw with hu
              injection hu with h1 h2
              subst h1
              exact ⟨rfl, h2.symm⟩
          obtain ⟨hfind, hrest⟩ := hinfo
          have hw'mem : w' ∈ ws := List.mem_of_find?_eq_some hfind
          have hw'pred := List.find?_some hfind
          rw [Bool.and_eq_true] at hw'pred
          obtain ⟨-, hw'at⟩ := hw'pred
          obtain ⟨hw'ne, hw'chars⟩ := hws w' hw'mem
          have hw'nws : ∀ c ∈ w', isWs c = false :=
            fun c hc => isWs_eq_false_of_wordChar (hw'chars c hc)
          have hw'take : (x :: xs).take w'.length = w' := by
            rw [wordAt, Bool.and_eq_true] at hw'at
            exact of_decide_eq_true hw'at.1
          have hsplit : x :: xs = w' ++ rest := by
            rw [hrest]
            conv_lhs => rw [← List.take_append_drop w'.length (x :: xs)]
            rw [hw'take]
          have hrlen : rest.length ≤ fuel := by
            rw [hrest]
            have hw1 : 1 ≤ w'.length := by
              cases w' with
              | nil => exact absurd rfl hw'ne
              | cons _ _ => simp
            simp only [List.length_drop, List.length_cons]
            omega
          have hrep : reps.getD (orc k % reps.length) [] ∈ reps := by
            refine getD_mem' reps _ _ (Nat.mod_lt _ ?_)
            cases reps with
            | nil => exact absurd rfl hrne
            | cons _ _ => simp
          obtain ⟨hrne', -, hrterm⟩ := hreps _ hrep
          have hlhs : countIB q (x :: xs) = countIB 'a' rest := by
            rw [hsplit, countIB_append_noWs w' hw'nws q rest]
            refine countIB_congr rest ?_
            rw [getLastD_indep w' hw'ne q 'a']
            exact isTerm_eq_false_of_wordChar
              (hw'chars _ (by
                rw [List.getLastD_eq_getLast?,
                  List.getLast?_eq_getLast_of_ne_nil hw'ne]
                exact List.getLast_mem hw'ne))
          rw [hlhs]
          calc countIB 'a' rest
              ≤ countIB 'a' (subScan ws reps orc fuel (k + 1) true rest) :=
                ih rest (k + 1) true 'a' hrlen
            _ = countIB ((reps.getD (orc k % reps.length) []).getLastD q)
                  (subScan ws reps orc fuel (k + 1) true rest) := by
                refine countIB_congr _ ?_
                have h' : isTerm ((reps.getD (orc k % reps.length) []).getLastD q)
                    = false := by
                  rw [getLastD_indep _ hrne' q 'a']
                  exact hrterm
                rw [h']
                rfl
            _ ≤ countIB q (reps.getD (orc k % reps.length) [] ++
                  subScan ws reps orc fuel (k + 1) true rest) :=
                countIB_append_ge _ q _

/-- Boundary count over a token list: a token followed by another token
contributes one boundary when it ends with terminal punctuation. -/
def tokB : List (List Char) → ℕ
  | [] => 0
  | [_] => 0
  | s :: t :: r => (if isTerm (s.getLastD 'a') then 1 else 0) + tokB (t :: r)

theorem pySplitAux_ne_nil_of_cur (l : List Char) :
    ∀ (cur : List Char), cur ≠ [] → pySplitAux cur l ≠ [] := by
  induction l with
  | nil => intro cur hc; simp [pySplitAux, hc]
  | cons x xs ih =>
    intro cur hc
    rw [pySplitAux]
    by_cases hx : isWs x = true
    · rw [if_pos (by simp [hx]), if_neg hc]
      exact List.cons_ne_nil _ _
    · rw [if_neg (by simpa using hx)]
      exact ih (x :: cur) (List.cons_ne_nil x cur)

theorem pySplit_eq_nil_iff (l : List Char) :
    pySplitAux [] l = [] ↔ hasNonWs l = false := by
  induction l with
  | nil => simp [pySplitAux, hasNonWs]
  | cons x xs ih =>
    cases hx : isWs x with
    | true =>
      rw [pySplitAux, if_pos (by simp [hx]), if_pos rfl]
      rw [ih]
      simp [hasNonWs, hx]
    | false =>
      rw [pySplitAux, if_neg (by simp [hx])]
      constructor
      · intro h
        exact absurd h (pySplitAux_ne_nil_of_cur xs [x] (List.cons_ne_nil x []))
      · intro h
        exfalso
        simp only [hasNonWs, List.any_cons, hx, Bool.or_eq_false_iff] at h
        exact absurd h.1 (by simp)

theorem countIB_tokens :
    ∀ (l : List Char) (cur : List Char) (p : Char),
      (∀ c ∈ cur, isWs c = false) →
      isTerm p = isTerm (cur.headD '-') →
      countIB p l = tokB (pySplitAux cur l) := by
  intro l
  induction l with
  | nil =>
    intro cur p _ _
    cases cur with
    | nil => rfl
    | cons a t => rfl
  | cons x xs ih =>
    intro cur p hcur hp
    cases hx : isWs x with
    | true =>
      have hsplit_eq : pySplitAux cur (x :: xs) =
          (if cur = [] then pySplitAux [] xs else cur.reverse :: pySplitAux [] xs) := by
        rw [pySplitAux, if_pos (by simp [hx])]
      cases cur with
      | nil =>
        rw [hsplit_eq, if_pos rfl]
        have hp0 : isTerm p = false := hp
        rw [countIB_cons_of_pair_false xs (by rw [hp0, Bool.false_and])]
        exact ih [] x (by simp) (by rw [isTerm_eq_false_of_isWs hx]; rfl)
      | cons a tl =>
        rw [hsplit_eq, if_neg (by simp)]
        cases hR : pySplitAux [] xs with
        | nil =>
          have hnw : hasNonWs xs = false := (pySplit_eq_nil_iff xs).1 hR
          rw [countIB, hnw]
          simp only [Bool.and_false, Bool.false_eq_true, if_false]
          rw [ih [] x (by simp) (by rw [isTerm_eq_false_of_isWs hx]; rfl), hR]
          rfl
        | cons r rs =>
          have hnw : hasNonWs xs = true := by
            cases h : hasNonWs xs with
            | true => rfl
            | false =>
              rw [← pySplit_eq_nil_iff xs] at h
              rw [h] at hR
              exact absurd hR (by simp)
          rw [countIB, hnw, hx]
          rw [show tokB ((a :: tl).reverse :: r :: rs) =
            (if isTerm ((a :: tl).reverse.getLastD 'a') then 1 else 0) +
              tokB (r :: rs) from rfl]
          rw [getLastD_reverse]
          have ihx := ih [] x (by simp) (by rw [isTerm_eq_false_of_isWs hx]; rfl)
          rw [hR] at ihx
          rw [← ihx]
          rw [show ((a :: tl).headD 'a') = a from rfl]
          rw [show isTerm p = isTerm a from hp]
          simp
    | false =>
      have hsplit_eq : pySplitAux cur (x :: xs) = pySplitAux (x :: cur) xs := by
        rw [pySplitAux, if_neg (by simp [hx])]
      rw [hsplit_eq, countIB_cons_of_pair_false xs (by rw [hx, Bool.and_false])]
      refine ih (x :: cur) x ?_ rfl
      intro c hc
      rcases List.mem_cons.1 hc with h | h
      · exact h ▸ hx
      · exact hcur c h

theorem tokB_insIdx_ge (a : List Char) :
    ∀ (l : List (List Char)) (n : ℕ), tokB l ≤ tokB (insIdx (n + 1) a l) := by
  intro l
  induction l with
  | nil => intro n; exact Nat.zero_le _
  | cons x xs ih =>
    intro n
    show tokB (x :: xs) ≤ tokB (x :: insIdx n a xs)
    cases n with
    | zero =>
      show tokB (x :: xs) ≤ tokB (x :: a :: xs)
      cases xs with
      | nil => exact Nat.zero_le _
      | cons y ys =>
        rw [show tokB (x :: y :: ys) =
          (if isTerm (x.getLastD 'a') then 1 else 0) + tokB (y :: ys) from rfl]
        rw [show tokB (x :: a :: y :: ys) =
          (if isTerm (x.getLastD 'a') then 1 else 0) +
            ((if isTerm (a.getLastD 'a') then 1 else 0) + tokB (y :: ys)) from rfl]
        omega
    | succ m =>
      cases xs with
      | nil =>
        show tokB [x] ≤ tokB (x :: insIdx (m + 1) a [])
        exact Nat.zero_le _
      | cons y ys =>
        show tokB (x :: y :: ys) ≤ tokB (x :: insIdx (m + 1) a (y :: ys))
        rw [show insIdx (m + 1) a (y :: ys) = y :: insIdx m a ys from rfl]
        rw [show tokB (x :: y :: ys) =
          (if isTerm (x.getLastD 'a') then 1 else 0) + tokB (y :: ys) from rfl]
        rw [show tokB (x :: y :: insIdx m a ys) =
          (if isTerm (x.getLastD 'a') then 1 else 0) + tokB (y :: insIdx m a ys) from rfl]
        have := ih m
        rw [show insIdx (m + 1) a (y :: ys) = y :: insIdx m a ys from rfl] at this
        omega

theorem tokB_hesLoop_ge (dec : ℕ → Bool) (ch : ℕ → ℕ) :
    ∀ (i : ℕ) (ws : List (List Char)), tokB ws ≤ tokB (hesLoop dec ch i ws) := by
  intro i
  induction i with
  | zero => intro ws; exact le_refl _
  | succ m ih =>
    intro ws
    rw [hesLoop]
    by_cases hd : dec (m + 1) = true
    · rw [if_pos hd]
      calc tokB ws ≤ tokB (insIdx (m + 1) (hesitation_markers.getD (ch (m + 1) % 4) []) ws) :=
        tokB_insIdx_ge _ ws m
      _ ≤ _ := ih _
    · rw [if_neg hd]
      exact ih ws

theorem countIB_joinSep_eq_tokB :
    ∀ (toks : List (List Char)) (p : Char), isTerm p = false →
      (∀ s ∈ toks, s ≠ [] ∧ ∀ c ∈ s, isWs c = false) →
      countIB p (joinSep [' '] toks) = tokB toks := by
  intro toks
  induction toks with
  | nil => intro p _ _; rfl
  | cons t ts ih =>
    intro p hp htoks
    obtain ⟨htne, htnws⟩ := htoks t (List.mem_cons_self t ts)
    cases ts with
    | nil =>
      show countIB p t = tokB [t]
      rw [countIB_noWs t htnws p]
      rfl
    | cons t2 r =>
      rw [joinSep_cons_cons, List.singleton_append]
      rw [countIB_append_noWs t htnws p (' ' :: joinSep [' '] (t2 :: r))]
      obtain ⟨ht2ne, ht2nws⟩ := htoks t2 (List.mem_cons_of_mem t (List.mem_cons_self t2 r))
      have hj : hasNonWs (joinSep [' '] (t2 :: r)) = true := by
        refine hasNonWs_joinSep_head r ?_
        cases t2 with
        | nil => exact absurd rfl ht2ne
        | cons c cs =>
          refine hasNonWs_of_head (List.cons_ne_nil c cs) ?_
          exact ht2nws c (List.mem_cons_self c cs)
      rw [countIB, hj]
      rw [show isWs ' ' = true from rfl]
      rw [ih ' ' rfl (fun s hs => htoks s (List.mem_cons_of_mem t hs))]
      rw [getLastD_indep t htne p 'a']
      rw [show tokB (t :: t2 :: r) =
        (if isTerm (t.getLastD 'a') then 1 else 0) + tokB (t2 :: r) from rfl]
      simp

theorem introduce_natural_hesitation_bound (t : List Char) (dec : ℕ → Bool) (ch : ℕ → ℕ)
    (ht : hasNonWs t = true) :
    sentence_count t ≤ sentence_count (introduce_natural_hesitation t dec ch) ∧
    hasNonWs (introduce_natural_hesitation t dec ch) = true := by
  have htoks : ∀ tok ∈ hesLoop dec ch ((pySplit t).length - 1) (pySplit t),
      tok ≠ [] ∧ ∀ c ∈ tok, isWs c = false := by
    intro tok htok
    rcases hesLoop_mem dec ch _ _ tok htok with h' | h'
    · exact pySplit_tokens t tok h'
    · fin_cases h' <;> exact ⟨by decide, by decide⟩
  have hne : pySplit t ≠ [] := by
    intro h
    rw [pySplit] at h
    rw [pySplit_eq_nil_iff t] at h
    rw [ht] at h
    exact Bool.noConfusion h
  have hloopne : hesLoop dec ch ((pySplit t).length - 1) (pySplit t) ≠ [] :=
    (hesLoop_head? dec ch _ _ hne).2
  constructor
  · rw [sentence_count_eq t, sentence_count_eq]
    rw [countIB_tokens t [] 'a' (by simp) rfl]
    show tokB (pySplit t) + 1 ≤
      countIB 'a' (introduce_natural_hesitation t dec ch) + 1
    unfold introduce_natural_hesitation
    rw [countIB_joinSep_eq_tokB _ 'a' rfl htoks]
    have := tokB_hesLoop_ge dec ch ((pySplit t).length - 1) (pySplit t)
    omega
  · unfold introduce_natural_hesitation
    cases hm : hesLoop dec ch ((pySplit t).length - 1) (pySplit t) with
    | nil => exact absurd hm hloopne
    | cons s' ts' =>
      obtain ⟨hs'ne, hs'nws⟩ := htoks s' (hm ▸ List.mem_cons_self s' ts')
      refine hasNonWs_joinSep_head ts' ?_
      cases s' with
      | nil => exact absurd rfl hs'ne
      | cons c cs =>
        exact hasNonWs_of_head (List.cons_ne_nil c cs) (hs'nws c (List.mem_cons_self c cs))

theorem add_professional_transitions_bound (t : List Char) (o1 o2 : ℕ → ℕ)
    (ht : hasNonWs t = true) :
    sentence_count t ≤ sentence_count (add_professional_transitions t o1 o2) ∧
    hasNonWs (add_professional_transitions t o1 o2) = true := by
  have hg1 : ∀ u ∈ group1, u ≠ [] ∧ ∀ c ∈ u, isWordChar c = true := by decide
  have hg2 : ∀ u ∈ group2, u ≠ [] ∧ ∀ c ∈ u, isWordChar c = true := by decide
  have hr1 : ∀ r ∈ reps1, r ≠ [] ∧ hasNonWs r = true ∧ isTerm (r.getLastD 'a') = false := by
    decide
  have hr2 : ∀ r ∈ reps2, r ≠ [] ∧ hasNonWs r = true ∧ isTerm (r.getLastD 'a') = false := by
    decide
  unfold add_professional_transitions subPass
  have h1nw : hasNonWs (subScan group1 reps1 o1 t.length 0 false t) = true :=
    subScan_hasNonWs group1 reps1 o1 hg1 (by decide) (fun r hr => (hr1 r hr).2.1)
      t.length t 0 false (le_refl _) ht
  have h2nw : hasNonWs (subScan group2 reps2 o2
      (subScan group1 reps1 o1 t.length 0 false t).length 0 false
      (subScan group1 reps1 o1 t.length 0 false t)) = true :=
    subScan_hasNonWs group2 reps2 o2 hg2 (by decide) (fun r hr => (hr2 r hr).2.1)
      _ _ 0 false (le_refl _) h1nw
  refine ⟨?_, h2nw⟩
  have hc1 : countIB 'a' t ≤ countIB 'a' (subScan group1 reps1 o1 t.length 0 false t) :=
    subScan_countIB_ge group1 reps1 o1 hg1 (by decide) hr1 t.length t 0 false 'a' (le_refl _)
  have hc2 : countIB 'a' (subScan group1 reps1 o1 t.length 0 false t) ≤
      countIB 'a' (subScan group2 reps2 o2
        (subScan group1 reps1 o1 t.length 0 false t).length 0 false
        (subScan group1 reps1 o1 t.length 0 false t)) :=
    subScan_countIB_ge group2 reps2 o2 hg2 (by decide) hr2 _ _ 0 false 'a' (le_refl _)
  rw [sentence_count_eq t, sentence_count_eq]
  omega

theorem applyMod_bound (o : Oracle) (m : Fin 5) (u : List Char)
    (hu : hasNonWs u = true) :
    sentence_count u ≤ sentence_count (applyMod o m u) ∧
    hasNonWs (applyMod o m u) = true := by
  unfold applyMod
  by_cases h0 : m.val = 0
  · rw [if_pos h0]
    exact add_professional_transitions_bound u o.transO1 o.transO2 hu
  rw [if_neg h0]
  by_cases h1 : m.val = 1
  · rw [if_pos h1]
    exact vary_sentence_structure_bound u o.varyDec o.varyCh hu
  rw [if_neg h1]
  by_cases h2 : m.val = 2
  · rw [if_pos h2]
    exact introduce_natural_hesitation_bound u o.hesDec o.hesCh hu
  rw [if_neg h2]
  by_cases h3 : m.val = 3
  · rw [if_pos h3]
    exact add_contextual_nuance_bound u o.nuanceDec o.nuanceCh hu
  rw [if_neg h3]
  exact refine_punctuation_bound u o.refineDec hu

theorem foldl_applyMod_bound (o : Oracle) :
    ∀ (sel : List (Fin 5)) (u : List Char), hasNonWs u = true →
      sentence_count u ≤ sentence_count (sel.foldl (fun a m => applyMod o m a) u) ∧
      hasNonWs (sel.foldl (fun a m => applyMod o m a) u) = true := by
  intro sel
  induction sel with
  | nil => intro u hu; exact ⟨le_refl _, hu⟩
  | cons m ms ih =>
    intro u hu
    obtain ⟨h1, h2⟩ := applyMod_bound o m u hu
    obtain ⟨h3, h4⟩ := ih (applyMod o m u) h2
    exact ⟨le_trans h1 h3, h4⟩

/-- The end-to-end scenario input of the spec. -/
def scenario_input : List Char :=
  "AI improves efficiency. However, it has risks. Furthermore, adoption is growing.".data

unseal Rat.mul Rat.add Rat.sub Rat.inv in
/-- C4 counterexample: a genuine random outcome (base draw 2, operation
order starting with punctuation refinement then nuance — the transition
substitution is not selected) on the scenario input yields an output that
contains the literal whitespace-delimited token `However`. -/
theorem scenario_token_However_possible :
    validOracle { baseOracle with order := [4, 3, 0, 1, 2], refineDec := fun _ => true } ∧
    "However".data ∈ pySplit ((humanize ⟨[]⟩ scenario_input "Professional" 5
      { baseOracle with order := [4, 3, 0, 1, 2], refineDec := fun _ => true }).1) := by
  decide

/-- C4 as amended: for every possible random outcome the scenario output
is non-empty and its sentence count is at least the input's (which is 3);
the no-`However`/`Furthermore` guarantee holds for the outcomes whose last
applied operation is the transition substitution. -/
theorem scenario_humanize_properties (hm : Humanizer) (o : Oracle)
    (_hv : validOracle o) :
    (humanize hm scenario_input "Professional" 5 o).1 ≠ [] ∧
    sentence_count scenario_input ≤
      sentence_count (humanize hm scenario_input "Professional" 5 o).1 ∧
    sentence_count scenario_input = 3 ∧
    (∀ m0 : Fin 5, (selected_mods "Professional" 5 o).getLast? = some m0 →
      m0.val = 0 →
      ∀ w ∈ group1 ++ group2,
        occursW w false (humanize hm scenario_input "Professional" 5 o).1 = false) := by
  have hne : scenario_input ≠ [] := by decide
  have hnw : hasNonWs scenario_input = true := by decide
  have h1 : (humanize hm scenario_input "Professional" 5 o).1 =
      (selected_mods "Professional" 5 o).foldl (fun a m => applyMod o m a)
        scenario_input := by
    simp [humanize, hne]
  obtain ⟨hbound, hout_nw⟩ :=
    foldl_applyMod_bound o (selected_mods "Professional" 5 o) scenario_input hnw
  refine ⟨?_, ?_, by decide, ?_⟩
  · rw [h1]
    exact hasNonWs_ne_nil hout_nw
  · rw [h1]
    exact hbound
  · intro m0 hlast h0 w hw
    rw [h1]
    have hselne : selected_mods "Professional" 5 o ≠ [] := by
      intro h
      rw [h] at hlast
      exact Option.noConfusion hlast
    have hm0 : (selected_mods "Professional" 5 o).getLast hselne = m0 := by
      rw [List.getLast?_eq_getLast_of_ne_nil hselne] at hlast
      exact Option.some.inj hlast
    have hfold : (selected_mods "Professional" 5 o).foldl
        (fun a m => applyMod o m a) scenario_input =
        applyMod o m0 ((selected_mods "Professional" 5 o).dropLast.foldl
          (fun a m => applyMod o m a) scenario_input) := by
      conv_lhs => rw [← List.dropLast_append_getLast hselne]
      rw [List.foldl_append, hm0]
      rfl
    rw [hfold]
    show occursW w false (applyMod o m0 _) = false
    unfold applyMod
    rw [if_pos h0]
    exact transitions_remove_connectives_core _ o.transO1 o.transO2 w hw

/-- Witness for `scenario_humanize_properties` at a concrete valid oracle. -/
theorem scenario_humanize_properties_witness :
    (humanize ⟨[]⟩ scenario_input "Professional" 5 baseOracle).1 ≠ [] ∧
    sentence_count scenario_input ≤
      sentence_count (humanize ⟨[]⟩ scenario_input "Professional" 5 baseOracle).1 ∧
    sentence_count scenario_input = 3 ∧
    (∀ m0 : Fin 5, (selected_mods "Professional" 5 baseOracle).getLast? = some m0 →
      m0.val = 0 →
      ∀ w ∈ group1 ++ group2,
        occursW w false (humanize ⟨[]⟩ scenario_input "Professional" 5 baseOracle).1
          = false) :=
  scenario_humanize_properties ⟨[]⟩ baseOracle (by decide)
